import Mathlib

/-!
# Verification of the macro-generated binary min-heap (`src/heap.h`)

`DECL_HEAP(type, type_name, type_compare)` generates a fixed-capacity, array-backed
binary min-heap.  This file embeds the generated functions for an arbitrary element
type `α` and an arbitrary comparator `compare : α → α → Int`, and proves properties
of them.

Modelling decisions.

* The backing array `heap->elements` is the list of its allocated slots.  Every read
  and write goes through `readAt` / `writeAt`, which report an access outside the
  allocated slots as `Fault.outOfBounds` (undefined behaviour in C).
* `exit(1)` in `heap_pop` is `Fault.emptyHeap`.
* The loops are total functions defined by well-founded recursion on the loop index.
  `heap_sort_down` always enters its loop at index 1, so the loop function carries the
  fact `0 < currentIndex`.
* Inside `push`, `pop` and the two sort functions the `size_t` indices are natural
  numbers.  The largest value these functions form is `2 * currentIndex + 1` with
  `currentIndex <= size`, and `size` is smaller than the number of allocated slots, so
  for an array the platform can hold (at most `PTRDIFF_MAX` bytes) no index wraps.
  The `size_t` arithmetic of `heap_create`, where a caller-supplied value is
  incremented and multiplied, is modelled with explicit reduction modulo `2 ^ w`.
* The functions whose name ends in `T` are the same code over `readAtT` / `writeAtT`,
  which also record the index of the access; `heap_sort_up_step` and
  `heap_sort_down_step` are one evaluation of the loop bodies.  Theorems tie each of
  them to the function it copies.
* `malloc` returns uninitialised storage: the initial content of the slots is an
  arbitrary function `junk`, and the success of each allocation is an input.
-/

namespace MinHeap

/-! ## Data model -/

/-- The ways a call can fail to return normally. -/
inductive Fault where
  /-- An array access at `index`, outside the allocated slots. -/
  | outOfBounds (index : Nat)
  /-- The error branch of `heap_pop`: diagnostic message and `exit(1)`. -/
  | emptyHeap
  deriving DecidableEq

/-- The record `type_name##_Heap`: `capacity`, `size` and the allocated slots of
`elements`. -/
structure Heap (α : Type) where
  capacity : Nat
  size : Nat
  elements : List α
  deriving DecidableEq

/-- The read `elements[i]`. -/
def readAt {α : Type} (xs : List α) (i : Nat) : Except Fault α :=
  match xs[i]? with
  | some x => .ok x
  | none => .error (.outOfBounds i)

/-- The write `elements[i] = v`. -/
def writeAt {α : Type} (xs : List α) (i : Nat) (v : α) : Except Fault (List α) :=
  if i < xs.length then .ok (xs.set i v) else .error (.outOfBounds i)

/-! ## The generated functions -/

/-- The function `type_name##_heap_create` (heap.h lines 37-61), for a `size_t` of
`w` bits and `sizeof(type) = sizeofType`.  `recordOk` and `elementsOk` say whether
the first and the second `malloc` succeed; `junk` is the uninitialised content.
The second `malloc` is asked for `sizeof(type) * (capacity + 1)` bytes, computed in
`size_t`; the block it returns holds that many bytes divided by `sizeof(type)` slots. -/
def heap_create {α : Type} (w sizeofType : Nat) (recordOk elementsOk : Bool)
    (junk : Nat → α) (capacity : Nat) : Option (Heap α) :=
  if !recordOk then none
  else
    let bytes := (sizeofType * ((capacity + 1) % 2 ^ w)) % 2 ^ w
    if !elementsOk then none
    else some { capacity := capacity, size := 0,
                elements := (List.range (bytes / sizeofType)).map junk }

/-- The `while (currentIndex > 1)` loop of `heap_sort_up` (heap.h lines 94-109).
Returns the final `currentIndex` and the array. -/
def heap_sort_up_loop {α : Type} (compare : α → α → Int) (sortElement : α)
    (currentIndex : Nat) (elements : List α) : Except Fault (Nat × List α) :=
  if h : currentIndex > 1 then do
    let parentIndex := currentIndex / 2
    let parent ← readAt elements parentIndex
    if compare parent sortElement < 0 then do
      let moved ← readAt elements parentIndex
      let elements ← writeAt elements currentIndex moved
      heap_sort_up_loop compare sortElement parentIndex elements
    else pure (currentIndex, elements)
  else pure (currentIndex, elements)
termination_by currentIndex
decreasing_by omega

/-- The function `type_name##_heap_sort_up` (heap.h lines 83-116). -/
def heap_sort_up {α : Type} (compare : α → α → Int) (heap : Heap α) :
    Except Fault (Heap α) :=
  if heap.size > 1 then do
    let currentIndex := heap.size
    let sortElement ← readAt heap.elements currentIndex
    let (currentIndex, elements) ←
      heap_sort_up_loop compare sortElement currentIndex heap.elements
    let elements ← writeAt elements currentIndex sortElement
    pure { heap with elements := elements }
  else pure heap

/-- The `while (1)` loop of `heap_sort_down` (heap.h lines 134-170).  The `&&` chain
is evaluated left to right and stops at the first false operand, so the right child
is read only when `rightChildIndex <= size`.  Returns the final `currentIndex` and
the array. -/
def heap_sort_down_loop {α : Type} (compare : α → α → Int) (size : Nat) (sortElement : α)
    (currentIndex : Nat) (hpos : 0 < currentIndex) (elements : List α) :
    Except Fault (Nat × List α) :=
  let leftChildIndex := 2 * currentIndex
  let rightChildIndex := leftChildIndex + 1
  if hl : leftChildIndex ≤ size then do
    let rightFirst ←
      (if rightChildIndex ≤ size then do
        let right ← readAt elements rightChildIndex
        if compare sortElement right < 0 then do
          let right ← readAt elements rightChildIndex
          let left ← readAt elements leftChildIndex
          pure (decide (compare right left > 0))
        else pure false
      else pure false)
    if rightFirst then do
      let moved ← readAt elements rightChildIndex
      let elements ← writeAt elements currentIndex moved
      heap_sort_down_loop compare size sortElement rightChildIndex (Nat.succ_pos _) elements
    else do
      let left ← readAt elements leftChildIndex
      if compare sortElement left < 0 then do
        let moved ← readAt elements leftChildIndex
        let elements ← writeAt elements currentIndex moved
        heap_sort_down_loop compare size sortElement leftChildIndex
          (Nat.mul_pos (by decide) hpos) elements
      else pure (currentIndex, elements)
  else pure (currentIndex, elements)
termination_by size - currentIndex
decreasing_by all_goals omega

/-- The function `type_name##_heap_sort_down` (heap.h lines 123-177). -/
def heap_sort_down {α : Type} (compare : α → α → Int) (heap : Heap α) :
    Except Fault (Heap α) :=
  if heap.size > 1 then do
    let sortElement ← readAt heap.elements 1
    let (currentIndex, elements) ←
      heap_sort_down_loop compare heap.size sortElement 1 (by decide) heap.elements
    let elements ← writeAt elements currentIndex sortElement
    pure { heap with elements := elements }
  else pure heap

/-- The function `type_name##_heap_push` (heap.h lines 185-192):
`heap->elements[++heap->size] = element;` then `heap_sort_up`. -/
def heap_push {α : Type} (compare : α → α → Int) (heap : Heap α) (element : α) :
    Except Fault (Heap α) := do
  let size := heap.size + 1
  let elements ← writeAt heap.elements size element
  heap_sort_up compare { heap with size := size, elements := elements }

/-- The function `type_name##_heap_pop` (heap.h lines 200-219).  Returns the saved
top element together with the heap after the call. -/
def heap_pop {α : Type} (compare : α → α → Int) (heap : Heap α) :
    Except Fault (α × Heap α) :=
  if heap.size > 0 then do
    let element ← readAt heap.elements 1
    let last ← readAt heap.elements heap.size
    let size := heap.size - 1
    let elements ← writeAt heap.elements 1 last
    let heap ← heap_sort_down compare { heap with size := size, elements := elements }
    pure (element, heap)
  else .error .emptyHeap

/-! ## Vocabulary of the specification -/

/-- The comparator contract of a total preorder in the inverted convention of
heap.h line 10: `compare a b < 0` when `a` is bigger, `> 0` when `a` is smaller; the
signs of `compare a b` and `compare b a` are opposite; "not bigger" is transitive. -/
structure TotalPreorder {α : Type} (compare : α → α → Int) : Prop where
  opposite : ∀ a b, (compare a b).sign = -(compare b a).sign
  trans : ∀ a b c, 0 ≤ compare a b → 0 ≤ compare b c → 0 ≤ compare a c

/-- Heap order of the slots `1 .. n` of an array: for every `2 <= i <= n` the parent
`elements[i/2]` is not bigger than `elements[i]`. -/
def Ordered {α : Type} (compare : α → α → Int) (elements : List α) (n : Nat) : Prop :=
  ∀ i, 2 ≤ i → i ≤ n → ∀ p c, elements[i / 2]? = some p → elements[i]? = some c →
    0 ≤ compare p c

/-- The heap-order invariant of a heap. -/
def HeapOrdered {α : Type} (compare : α → α → Int) (heap : Heap α) : Prop :=
  Ordered compare heap.elements heap.size

/-- The stored elements: the slots `1 .. size`. -/
def stored {α : Type} (heap : Heap α) : List α :=
  (heap.elements.drop 1).take heap.size

/-- A heap as `create` lays it out: `capacity + 1` slots and `size <= capacity`. -/
def WellFormed {α : Type} (heap : Heap α) : Prop :=
  heap.elements.length = heap.capacity + 1 ∧ heap.size ≤ heap.capacity

/-- The states reachable from the heap `start` by `push` calls made with
`size < capacity` and `pop` calls made with `size > 0`, each returning normally. -/
inductive Reachable {α : Type} (compare : α → α → Int) (start : Heap α) : Heap α → Prop where
  | start : Reachable compare start start
  | push (heap heap' : Heap α) (element : α) :
      Reachable compare start heap → heap.size < heap.capacity →
      heap_push compare heap element = .ok heap' → Reachable compare start heap'
  | pop (heap heap' : Heap α) (element : α) :
      Reachable compare start heap → 0 < heap.size →
      heap_pop compare heap = .ok (element, heap') → Reachable compare start heap'

/-- Push the elements of a list in order. -/
def pushAll {α : Type} (compare : α → α → Int) : Heap α → List α → Except Fault (Heap α)
  | heap, [] => pure heap
  | heap, x :: xs => do
    let heap ← heap_push compare heap x
    pushAll compare heap xs

/-- Pop `n` times, collecting the returned elements in the order of the calls. -/
def popN {α : Type} (compare : α → α → Int) : Nat → Heap α → Except Fault (List α × Heap α)
  | 0, heap => pure ([], heap)
  | n + 1, heap => do
    let (element, heap) ← heap_pop compare heap
    let (rest, heap) ← popN compare n heap
    pure (element :: rest, heap)

/-- The comparator of integers in natural ascending order, in the inverted
convention: negative when `a` is bigger than `b`. -/
def ascending (a b : Int) : Int := b - a

/-! ## Loop invariants -/

/-- Loop invariant of `heap_sort_up`, on the array `v` in which `sortElement` sits at
`cur`: every pair parent/child is ordered except possibly `cur` against its parent,
and the parent of `cur` is not bigger than the children of `cur`. -/
def UpInv {α : Type} (compare : α → α → Int) (n cur : Nat) (v : List α) : Prop :=
  (∀ i, 2 ≤ i → i ≤ n → i ≠ cur → ∀ p c, v[i / 2]? = some p → v[i]? = some c →
    0 ≤ compare p c) ∧
  (2 ≤ cur → ∀ c, c ≤ n → c / 2 = cur → ∀ g x, v[cur / 2]? = some g → v[c]? = some x →
    0 ≤ compare g x)

/-- Loop invariant of `heap_sort_down`, on the array `v` in which `sortElement` sits
at `cur`: every pair parent/child is ordered except possibly `cur` against its
children, and the parent of `cur` is not bigger than the children of `cur`. -/
def DownInv {α : Type} (compare : α → α → Int) (n cur : Nat) (v : List α) : Prop :=
  (∀ i, 2 ≤ i → i ≤ n → i / 2 ≠ cur → ∀ p c, v[i / 2]? = some p → v[i]? = some c →
    0 ≤ compare p c) ∧
  (2 ≤ cur → ∀ c, c ≤ n → c / 2 = cur → ∀ g x, v[cur / 2]? = some g → v[c]? = some x →
    0 ≤ compare g x)

/-! ## Comparators used in the scenarios -/

/-- Pairwise consistency alone: the signs of `compare a b` and `compare b a` are
opposite (and so the two are zero together); no transitivity. -/
def PairwiseConsistent {α : Type} (compare : α → α → Int) : Prop :=
  ∀ a b, (compare a b).sign = -(compare b a).sign

/-- A pairwise consistent comparator of integers that is not transitive: `a` is
smaller than `b` when `b - a` is 1 modulo 3, bigger when it is 2 modulo 3, and equal
when it is 0 modulo 3 (so 0 is smaller than 1, 1 smaller than 2, 2 smaller than 0). -/
def cyclic (a b : Int) : Int :=
  if (b - a) % 3 = 0 then 0 else if (b - a) % 3 = 1 then 1 else -1

/-- The ascending comparator of integers carrying a tag: it compares the integers
and ignores the tag. -/
def byKey (a b : Int × Nat) : Int := b.1 - a.1

/-! ## Single iterations of the loops -/

/-- One evaluation of the loop test and body of `heap_sort_up` (heap.h lines 94-109):
`none` when the loop exits (test false, or `break`), otherwise the next
`currentIndex` and the array after the move. -/
def heap_sort_up_step {α : Type} (compare : α → α → Int) (sortElement : α)
    (currentIndex : Nat) (elements : List α) : Except Fault (Option (Nat × List α)) :=
  if currentIndex > 1 then do
    let parentIndex := currentIndex / 2
    let parent ← readAt elements parentIndex
    if compare parent sortElement < 0 then do
      let moved ← readAt elements parentIndex
      let elements ← writeAt elements currentIndex moved
      pure (some (parentIndex, elements))
    else pure none
  else pure none

/-- One evaluation of the body of the `while (1)` loop of `heap_sort_down` (heap.h
lines 136-169): `none` on `break`, otherwise the next `currentIndex` and the array
after the move. -/
def heap_sort_down_step {α : Type} (compare : α → α → Int) (size : Nat) (sortElement : α)
    (currentIndex : Nat) (elements : List α) : Except Fault (Option (Nat × List α)) :=
  let leftChildIndex := 2 * currentIndex
  let rightChildIndex := leftChildIndex + 1
  if leftChildIndex ≤ size then do
    let rightFirst ←
      (if rightChildIndex ≤ size then do
        let right ← readAt elements rightChildIndex
        if compare sortElement right < 0 then do
          let right ← readAt elements rightChildIndex
          let left ← readAt elements leftChildIndex
          pure (decide (compare right left > 0))
        else pure false
      else pure false)
    if rightFirst then do
      let moved ← readAt elements rightChildIndex
      let elements ← writeAt elements currentIndex moved
      pure (some (rightChildIndex, elements))
    else do
      let left ← readAt elements leftChildIndex
      if compare sortElement left < 0 then do
        let moved ← readAt elements leftChildIndex
        let elements ← writeAt elements currentIndex moved
        pure (some (leftChildIndex, elements))
      else pure none
  else pure none

/-- The condition of section 4.4 under which the right child is promoted: it exists,
is strictly smaller than the element `c` being placed, and is strictly smaller than
the left child. -/
def RightPromoted {α : Type} (compare : α → α → Int) (size : Nat) (c : α) (i : Nat)
    (elements : List α) : Prop :=
  2 * i + 1 ≤ size ∧ ∃ r l, elements[2 * i + 1]? = some r ∧ elements[2 * i]? = some l ∧
    compare c r < 0 ∧ 0 < compare r l

/-- The condition of section 4.4 under which the left child is promoted: the right
child is not promoted, the left child exists and is strictly smaller than the element
`c` being placed. -/
def LeftPromoted {α : Type} (compare : α → α → Int) (size : Nat) (c : α) (i : Nat)
    (elements : List α) : Prop :=
  ¬ RightPromoted compare size c i elements ∧
    2 * i ≤ size ∧ ∃ l, elements[2 * i]? = some l ∧ compare c l < 0

/-! ## The textbook sift-down -/

/-- Following the spec's words (the "child-with-minimum-value selection" of its design
notes): the loop of the textbook sift-down.  At each step it selects the minimum
child, the right child only if it exists and is strictly smaller than the left,
otherwise the left, and promotes the selected child if and only if it is strictly
smaller than the element being placed. -/
def textbook_sift_down_loop {α : Type} (compare : α → α → Int) (size : Nat)
    (sortElement : α) (currentIndex : Nat) (hpos : 0 < currentIndex) (elements : List α) :
    Except Fault (Nat × List α) :=
  let leftChildIndex := 2 * currentIndex
  let rightChildIndex := leftChildIndex + 1
  if hl : leftChildIndex ≤ size then do
    let rightIsMinimum ←
      (if rightChildIndex ≤ size then do
        let right ← readAt elements rightChildIndex
        let left ← readAt elements leftChildIndex
        pure (decide (compare right left > 0))
      else pure false)
    if rightIsMinimum then do
      let minimum ← readAt elements rightChildIndex
      if compare sortElement minimum < 0 then do
        let elements ← writeAt elements currentIndex minimum
        textbook_sift_down_loop compare size sortElement rightChildIndex (Nat.succ_pos _)
          elements
      else pure (currentIndex, elements)
    else do
      let minimum ← readAt elements leftChildIndex
      if compare sortElement minimum < 0 then do
        let elements ← writeAt elements currentIndex minimum
        textbook_sift_down_loop compare size sortElement leftChildIndex
          (Nat.mul_pos (by decide) hpos) elements
      else pure (currentIndex, elements)
  else pure (currentIndex, elements)
termination_by size - currentIndex
decreasing_by all_goals omega

/-- Following the spec's words: the textbook sift-down of the element at index 1, with
the same frame as `heap_sort_down` (nothing to do for `size <= 1`, the element being
placed is written where the loop stops). -/
def textbook_sift_down {α : Type} (compare : α → α → Int) (heap : Heap α) :
    Except Fault (Heap α) :=
  if heap.size > 1 then do
    let sortElement ← readAt heap.elements 1
    let (currentIndex, elements) ←
      textbook_sift_down_loop compare heap.size sortElement 1 (by decide) heap.elements
    let elements ← writeAt elements currentIndex sortElement
    pure { heap with elements := elements }
  else pure heap

/-! ## The functions with a record of their array accesses -/

/-- Computations that record, in order, the index of every array access they make. -/
abbrev Traced (β : Type) : Type := StateT (List Nat) (Except Fault) β

/-- The read `elements[i]`, recorded. -/
def readAtT {α : Type} (xs : List α) (i : Nat) : Traced α :=
  fun log => (readAt xs i).map (fun x => (x, log ++ [i]))

/-- The write `elements[i] = v`, recorded. -/
def writeAtT {α : Type} (xs : List α) (i : Nat) (v : α) : Traced (List α) :=
  fun log => (writeAt xs i v).map (fun ys => (ys, log ++ [i]))

/-- The loop of `heap_sort_up` (heap.h lines 94-109) with its accesses recorded. -/
def heap_sort_up_loopT {α : Type} (compare : α → α → Int) (sortElement : α)
    (currentIndex : Nat) (elements : List α) : Traced (Nat × List α) :=
  if h : currentIndex > 1 then do
    let parentIndex := currentIndex / 2
    let parent ← readAtT elements parentIndex
    if compare parent sortElement < 0 then do
      let moved ← readAtT elements parentIndex
      let elements ← writeAtT elements currentIndex moved
      heap_sort_up_loopT compare sortElement parentIndex elements
    else pure (currentIndex, elements)
  else pure (currentIndex, elements)
termination_by currentIndex
decreasing_by omega

/-- The function `heap_sort_up` (heap.h lines 83-116) with its accesses recorded. -/
def heap_sort_upT {α : Type} (compare : α → α → Int) (heap : Heap α) : Traced (Heap α) :=
  if heap.size > 1 then do
    let currentIndex := heap.size
    let sortElement ← readAtT heap.elements currentIndex
    let (currentIndex, elements) ←
      heap_sort_up_loopT compare sortElement currentIndex heap.elements
    let elements ← writeAtT elements currentIndex sortElement
    pure { heap with elements := elements }
  else pure heap

/-- The loop of `heap_sort_down` (heap.h lines 134-170) with its accesses recorded. -/
def heap_sort_down_loopT {α : Type} (compare : α → α → Int) (size : Nat) (sortElement : α)
    (currentIndex : Nat) (hpos : 0 < currentIndex) (elements : List α) :
    Traced (Nat × List α) :=
  let leftChildIndex := 2 * currentIndex
  let rightChildIndex := leftChildIndex + 1
  if hl : leftChildIndex ≤ size then do
    let rightFirst ←
      (if rightChildIndex ≤ size then do
        let right ← readAtT elements rightChildIndex
        if compare sortElement right < 0 then do
          let right ← readAtT elements rightChildIndex
          let left ← readAtT elements leftChildIndex
          pure (decide (compare right left > 0))
        else pure false
      else pure false)
    if rightFirst then do
      let moved ← readAtT elements rightChildIndex
      let elements ← writeAtT elements currentIndex moved
      heap_sort_down_loopT compare size sortElement rightChildIndex (Nat.succ_pos _) elements
    else do
      let left ← readAtT elements leftChildIndex
      if compare sortElement left < 0 then do
        let moved ← readAtT elements leftChildIndex
        let elements ← writeAtT elements currentIndex moved
        heap_sort_down_loopT compare size sortElement leftChildIndex
          (Nat.mul_pos (by decide) hpos) elements
      else pure (currentIndex, elements)
  else pure (currentIndex, elements)
termination_by size - currentIndex
decreasing_by all_goals omega

/-- The function `heap_sort_down` (heap.h lines 123-177) with its accesses recorded. -/
def heap_sort_downT {α : Type} (compare : α → α → Int) (heap : Heap α) :
    Traced (Heap α) :=
  if heap.size > 1 then do
    let sortElement ← readAtT heap.elements 1
    let (currentIndex, elements) ←
      heap_sort_down_loopT compare heap.size sortElement 1 (by decide) heap.elements
    let elements ← writeAtT elements currentIndex sortElement
    pure { heap with elements := elements }
  else pure heap

/-- The function `heap_push` (heap.h lines 185-192) with its accesses recorded. -/
def heap_pushT {α : Type} (compare : α → α → Int) (heap : Heap α) (element : α) :
    Traced (Heap α) := do
  let size := heap.size + 1
  let elements ← writeAtT heap.elements size element
  heap_sort_upT compare { heap with size := size, elements := elements }

/-- The function `heap_pop` (heap.h lines 200-219) with its accesses recorded. -/
def heap_popT {α : Type} (compare : α → α → Int) (heap : Heap α) :
    Traced (α × Heap α) :=
  if heap.size > 0 then do
    let element ← readAtT heap.elements 1
    let last ← readAtT heap.elements heap.size
    let size := heap.size - 1
    let elements ← writeAtT heap.elements 1 last
    let heap ← heap_sort_downT compare { heap with size := size, elements := elements }
    pure (element, heap)
  else fun _ => .error .emptyHeap

/-! ## Elementary facts -/

theorem readAt_of_getElem? {α : Type} {xs : List α} {i : Nat} {x : α}
    (h : xs[i]? = some x) : readAt xs i = .ok x := by
  simp [readAt, h]

theorem writeAt_of_lt {α : Type} {xs : List α} {i : Nat} (v : α) (h : i < xs.length) :
    writeAt xs i v = .ok (xs.set i v) := by
  simp [writeAt, h]

theorem exists_getElem?_of_lt {α : Type} {xs : List α} {i : Nat} (h : i < xs.length) :
    ∃ x, xs[i]? = some x :=
  ⟨xs[i], List.getElem?_eq_getElem h⟩

theorem getElem?_set_of_lt {α : Type} {xs : List α} {i : Nat} (j : Nat) (v : α)
    (h : i < xs.length) : (xs.set i v)[j]? = if i = j then some v else xs[j]? := by
  rw [List.getElem?_set]
  simp [h]


/-! ## Consequences of the comparator contract -/

theorem TotalPreorder.pos_of_neg {α : Type} {compare : α → α → Int}
    (hc : TotalPreorder compare) {a b : α} (h : compare a b < 0) : 0 < compare b a := by
  have h1 := hc.opposite a b
  rw [Int.sign_eq_neg_one_of_neg h] at h1
  have h2 : (compare b a).sign = 1 := by omega
  exact Int.sign_eq_one_iff_pos.1 h2

theorem TotalPreorder.neg_of_pos {α : Type} {compare : α → α → Int}
    (hc : TotalPreorder compare) {a b : α} (h : 0 < compare a b) : compare b a < 0 := by
  have h1 := hc.opposite a b
  rw [Int.sign_eq_one_of_pos h] at h1
  have h2 : (compare b a).sign = -1 := by omega
  exact Int.sign_eq_neg_one_iff_neg.1 h2

theorem TotalPreorder.refl {α : Type} {compare : α → α → Int}
    (hc : TotalPreorder compare) (a : α) : 0 ≤ compare a a := by
  by_contra h
  have h1 : compare a a < 0 := by omega
  have h2 := hc.pos_of_neg h1
  omega

/-- When `a` is not smaller than `b`, `b` is not bigger than `a`. -/
theorem TotalPreorder.flip {α : Type} {compare : α → α → Int}
    (hc : TotalPreorder compare) {a b : α} (h : ¬ 0 < compare a b) : 0 ≤ compare b a := by
  by_contra h1
  have h2 : compare b a < 0 := by omega
  exact h (hc.pos_of_neg h2)

theorem ascending_totalPreorder : TotalPreorder ascending := by
  constructor
  · intro a b
    unfold ascending
    rcases lt_trichotomy a b with h | h | h
    · rw [Int.sign_eq_one_of_pos (by omega), Int.sign_eq_neg_one_of_neg (by omega)]
      rfl
    · subst h
      simp
    · rw [Int.sign_eq_one_of_pos (show 0 < a - b by omega), Int.sign_eq_neg_one_of_neg (show b - a < 0 by omega)]
  · intro a b c
    unfold ascending
    omega

/-- Exchanging two slots of a list permutes it. -/
theorem set_cons_perm {α : Type} (x y : α) :
    ∀ (t : List α) (j : Nat), t[j]? = some y → (y :: t.set j x).Perm (x :: t) := by
  intro t
  induction t with
  | nil => intro j h; simp at h
  | cons a t ih =>
    intro j h
    cases j with
    | zero =>
      simp at h
      subst h
      simpa using List.Perm.swap x a t
    | succ k =>
      simp at h
      have h1 := ih k h
      have h2 : (y :: (a :: t).set (k + 1) x).Perm (a :: y :: t.set k x) := by
        simpa using List.Perm.swap a y (t.set k x)
      exact (h2.trans (List.Perm.cons a h1)).trans (List.Perm.swap x a t)

theorem set_set_perm {α : Type} (x y : α) :
    ∀ (l : List α) (i j : Nat), l[i]? = some x → l[j]? = some y →
      ((l.set i y).set j x).Perm l := by
  intro l
  induction l with
  | nil => intro i j h; simp at h
  | cons a t ih =>
    intro i j hi hj
    cases i with
    | zero =>
      cases j with
      | zero =>
        simp at hi
        subst hi
        simp
      | succ k =>
        simp at hi hj
        subst hi
        simpa using set_cons_perm a y t k hj
    | succ m =>
      cases j with
      | zero =>
        simp at hi hj
        subst hj
        simpa using set_cons_perm a x t m hi
      | succ k =>
        simp at hi hj
        simpa using List.Perm.cons a (ih m k hi hj)

/-! ## The loop of `heap_sort_up` -/

/-- The loop of `heap_sort_up` returns normally on an index inside the array; it
keeps the length, writes only at indices `2 .. currentIndex`, and the array with
`sortElement` put at the final index is a permutation of the array with
`sortElement` put at the initial index. -/
theorem heap_sort_up_loop_ok {α : Type} (compare : α → α → Int) (e : α) :
    ∀ (cur : Nat) (a : List α), cur < a.length →
      ∃ cur' a', heap_sort_up_loop compare e cur a = .ok (cur', a') ∧
        a'.length = a.length ∧ cur' ≤ cur ∧ (1 ≤ cur → 1 ≤ cur') ∧
        (∀ j, j = 0 ∨ cur < j → a'[j]? = a[j]?) ∧
        (a'.set cur' e).Perm (a.set cur e) := by
  intro cur
  induction cur using Nat.strong_induction_on with
  | _ cur ih =>
    intro a hlen
    rw [heap_sort_up_loop]
    split
    · rename_i hgt
      obtain ⟨p, hp⟩ := exists_getElem?_of_lt (show cur / 2 < a.length by omega)
      simp only [readAt_of_getElem? hp, bind, Except.bind]
      split
      · rw [writeAt_of_lt p hlen]
        simp only []
        obtain ⟨cur', a', hrun, hl, hle, hpos, hframe, hperm⟩ :=
          ih (cur / 2) (by omega) (a.set cur p) (by simp; omega)
        refine ⟨cur', a', hrun, by simpa using hl, by omega, fun _ => hpos (by omega), ?_, ?_⟩
        · intro j hj
          rw [hframe j (by omega), getElem?_set_of_lt j p hlen]
          rw [if_neg (by omega)]
        · refine hperm.trans ?_
          have h1 : (a.set cur e)[cur]? = some e := by
            rw [getElem?_set_of_lt cur e hlen]; simp
          have h2 : (a.set cur e)[cur / 2]? = some p := by
            rw [getElem?_set_of_lt (cur / 2) e hlen, if_neg (by omega)]; exact hp
          have h3 := set_set_perm e p (a.set cur e) cur (cur / 2) h1 h2
          simpa [List.set_set] using h3
      · exact ⟨cur, a, rfl, rfl, le_refl _, fun h => h, fun _ _ => rfl, List.Perm.refl _⟩
    · exact ⟨cur, a, rfl, rfl, le_refl _, fun h => h, fun _ _ => rfl, List.Perm.refl _⟩


theorem heap_sort_up_loop_ordered {α : Type} {compare : α → α → Int}
    (hc : TotalPreorder compare) (n : Nat) (e : α) :
    ∀ (cur : Nat) (a : List α) (cur' : Nat) (a' : List α), 1 ≤ cur → cur ≤ n →
      n < a.length → heap_sort_up_loop compare e cur a = .ok (cur', a') →
      UpInv compare n cur (a.set cur e) → Ordered compare (a'.set cur' e) n := by
  intro cur
  induction cur using Nat.strong_induction_on with
  | _ cur ih =>
    intro a cur' a' h1 hn hlen hrun hinv
    have hv : ∀ j, (a.set cur e)[j]? = if cur = j then some e else a[j]? :=
      fun j => getElem?_set_of_lt j e (by omega)
    rw [heap_sort_up_loop] at hrun
    split at hrun
    · rename_i hgt
      obtain ⟨p, hp⟩ := exists_getElem?_of_lt (show cur / 2 < a.length by omega)
      simp only [readAt_of_getElem? hp, bind, Except.bind] at hrun
      split at hrun
      · rename_i hlt
        rw [writeAt_of_lt p (show cur < a.length by omega)] at hrun
        simp only [] at hrun
        have hep : 0 ≤ compare e p := le_of_lt (hc.pos_of_neg hlt)
        have hw : ∀ j, ((a.set cur p).set (cur / 2) e)[j]? =
            if cur / 2 = j then some e else if cur = j then some p else a[j]? := by
          intro j
          rw [getElem?_set_of_lt j e (by simp; omega), getElem?_set_of_lt j p (by omega)]
        refine ih (cur / 2) (by omega) (a.set cur p) cur' a' (by omega) (by omega)
          (by simp; omega) hrun ⟨?_, ?_⟩
        · intro i hi2 hin hine pp cc hpp hcc
          rw [hw] at hpp hcc
          by_cases hic : i = cur
          · subst hic
            rw [if_pos rfl] at hpp
            rw [if_neg (by omega), if_pos rfl] at hcc
            cases hpp; cases hcc
            exact hep
          · rw [if_neg (by omega), if_neg (by omega)] at hcc
            by_cases hpar : i / 2 = cur
            · rw [if_neg (by omega), if_pos hpar.symm] at hpp
              cases hpp
              refine hinv.2 (by omega) i hin hpar p cc ?_ ?_
              · rw [hv, if_neg (by omega)]; exact hp
              · rw [hv, if_neg (by omega)]; exact hcc
            · by_cases hsib : i / 2 = cur / 2
              · rw [if_pos hsib.symm] at hpp
                cases hpp
                refine hc.trans _ _ _ hep (hinv.1 i hi2 hin hic p cc ?_ ?_)
                · rw [hv, if_neg (by omega), hsib]; exact hp
                · rw [hv, if_neg (by omega)]; exact hcc
              · rw [if_neg (by omega), if_neg (by omega)] at hpp
                refine hinv.1 i hi2 hin hic pp cc ?_ ?_
                · rw [hv, if_neg (by omega)]; exact hpp
                · rw [hv, if_neg (by omega)]; exact hcc
        · intro h2 c hcn hcpar g x hg hx
          rw [hw] at hg hx
          rw [if_neg (by omega), if_neg (by omega)] at hg
          have hgp : 0 ≤ compare g p := by
            refine hinv.1 (cur / 2) h2 (by omega) (by omega) g p ?_ ?_
            · rw [hv, if_neg (by omega)]; exact hg
            · rw [hv, if_neg (by omega)]; exact hp
          rw [if_neg (by omega)] at hx
          by_cases hcc : c = cur
          · rw [if_pos hcc.symm] at hx
            cases hx
            exact hgp
          · rw [if_neg (by omega)] at hx
            refine hc.trans _ _ _ hgp (hinv.1 c (by omega) hcn hcc p x ?_ ?_)
            · rw [hv, if_neg (by omega), hcpar]; exact hp
            · rw [hv, if_neg (by omega)]; exact hx
      · rename_i hge
        cases hrun
        intro i hi2 hin pp cc hpp hcc
        by_cases hic : i = cur
        · subst hic
          rw [hv, if_neg (by omega)] at hpp
          rw [hv, if_pos rfl] at hcc
          rw [hp] at hpp
          cases hpp; cases hcc
          omega
        · exact hinv.1 i hi2 hin hic pp cc hpp hcc
    · cases hrun
      intro i hi2 hin pp cc hpp hcc
      exact hinv.1 i hi2 hin (by omega) pp cc hpp hcc


/-! ## The loop of `heap_sort_down` -/

/-- One iteration of the loop of `heap_sort_down`: either it stops at `cur`, and then
(for a total preorder) `sortElement` is not bigger than any child of `cur`; or it
promotes a child `c` of `cur` holding `x`, strictly smaller than `sortElement` and
(for a total preorder) not bigger than the other child, and continues from `c`. -/
theorem heap_sort_down_loop_cases {α : Type} (compare : α → α → Int) (n : Nat) (e : α)
    (cur : Nat) (hpos : 0 < cur) (a : List α) (hlen : n < a.length) :
    (heap_sort_down_loop compare n e cur hpos a = .ok (cur, a) ∧
      (TotalPreorder compare → ∀ c x, c ≤ n → c / 2 = cur → a[c]? = some x →
        0 ≤ compare e x)) ∨
    (∃ c x, ∃ hc : 0 < c, c ≤ n ∧ c / 2 = cur ∧ a[c]? = some x ∧ compare e x < 0 ∧
      (TotalPreorder compare → ∀ o y, o ≤ n → o / 2 = cur → o ≠ c → a[o]? = some y →
        0 ≤ compare x y) ∧
      heap_sort_down_loop compare n e cur hpos a =
        heap_sort_down_loop compare n e c hc (a.set cur x)) := by
  have hchild : ∀ c, c / 2 = cur → c = 2 * cur ∨ c = 2 * cur + 1 := by
    intro c hc; omega
  rw [heap_sort_down_loop]
  split
  · rename_i hl
    obtain ⟨l, hgl⟩ := exists_getElem?_of_lt (show 2 * cur < a.length by omega)
    by_cases hr : 2 * cur + 1 ≤ n
    · obtain ⟨r, hgr⟩ := exists_getElem?_of_lt (show 2 * cur + 1 < a.length by omega)
      by_cases h1 : compare e r < 0
      · by_cases h2 : compare r l > 0
        · right
          refine ⟨2 * cur + 1, r, by omega, hr, by omega, hgr, h1, ?_, ?_⟩
          · intro _ o y _ ho hne hy
            have : o = 2 * cur := by have := hchild o ho; omega
            subst this
            rw [hgl] at hy; cases hy
            exact le_of_lt h2
          · simp [hr, h1, h2, readAt_of_getElem? hgr, readAt_of_getElem? hgl,
              writeAt_of_lt r (show cur < a.length by omega), bind, Except.bind, pure,
              Except.pure]
        · by_cases h3 : compare e l < 0
          · right
            refine ⟨2 * cur, l, by omega, hl, by omega, hgl, h3, ?_, ?_⟩
            · intro hc o y _ ho hne hy
              have : o = 2 * cur + 1 := by have := hchild o ho; omega
              subst this
              rw [hgr] at hy; cases hy
              exact hc.flip h2
            · simp [hr, h1, h2, h3, readAt_of_getElem? hgr, readAt_of_getElem? hgl,
                writeAt_of_lt l (show cur < a.length by omega), bind, Except.bind, pure,
                Except.pure]
          · left
            refine ⟨?_, ?_⟩
            · simp [hr, h1, h2, h3, readAt_of_getElem? hgr, readAt_of_getElem? hgl, bind,
                Except.bind, pure, Except.pure]
            · intro hc c x _ hcp hx
              rcases hchild c hcp with rfl | rfl
              · rw [hgl] at hx; cases hx; omega
              · rw [hgr] at hx; cases hx
                exact hc.trans _ _ _ (show 0 ≤ compare e l by omega) (hc.flip h2)
      · by_cases h3 : compare e l < 0
        · right
          refine ⟨2 * cur, l, by omega, hl, by omega, hgl, h3, ?_, ?_⟩
          · intro hc o y _ ho hne hy
            have : o = 2 * cur + 1 := by have := hchild o ho; omega
            subst this
            rw [hgr] at hy; cases hy
            exact hc.trans _ _ _ (le_of_lt (hc.pos_of_neg h3)) (show 0 ≤ compare e r by omega)
          · simp [hr, h1, h3, readAt_of_getElem? hgr, readAt_of_getElem? hgl,
              writeAt_of_lt l (show cur < a.length by omega), bind, Except.bind, pure,
              Except.pure]
        · left
          refine ⟨?_, ?_⟩
          · simp [hr, h1, h3, readAt_of_getElem? hgr, readAt_of_getElem? hgl, bind,
              Except.bind, pure, Except.pure]
          · intro hc c x _ hcp hx
            rcases hchild c hcp with rfl | rfl
            · rw [hgl] at hx; cases hx; omega
            · rw [hgr] at hx; cases hx; omega
    · by_cases h3 : compare e l < 0
      · right
        refine ⟨2 * cur, l, by omega, hl, by omega, hgl, h3, ?_, ?_⟩
        · intro hc o y hon ho hne hy
          have := hchild o ho
          omega
        · simp [hr, h3, readAt_of_getElem? hgl,
            writeAt_of_lt l (show cur < a.length by omega), bind, Except.bind, pure,
            Except.pure]
      · left
        refine ⟨?_, ?_⟩
        · simp [hr, h3, readAt_of_getElem? hgl, bind, Except.bind, pure, Except.pure]
        · intro hc c x hcn hcp hx
          rcases hchild c hcp with rfl | rfl
          · rw [hgl] at hx; cases hx; omega
          · omega
  · left
    refine ⟨rfl, ?_⟩
    intro hc c x hcn hcp hx
    have := hchild c hcp
    omega


/-- The loop of `heap_sort_down` returns normally; it keeps the length, writes only
at indices `currentIndex .. size`, and the array with `sortElement` put at the final
index is a permutation of the array with `sortElement` put at the initial index. -/
theorem heap_sort_down_loop_ok {α : Type} (compare : α → α → Int) (n : Nat) (e : α) :
    ∀ (m cur : Nat) (hpos : 0 < cur) (a : List α), n - cur = m → cur ≤ n → n < a.length →
      ∃ cur' a', heap_sort_down_loop compare n e cur hpos a = .ok (cur', a') ∧
        a'.length = a.length ∧ cur ≤ cur' ∧ cur' ≤ n ∧
        (∀ j, j < cur ∨ n < j → a'[j]? = a[j]?) ∧
        (a'.set cur' e).Perm (a.set cur e) := by
  intro m
  induction m using Nat.strong_induction_on with
  | _ m ih =>
    intro cur hpos a hm hcur hlen
    rcases heap_sort_down_loop_cases compare n e cur hpos a hlen with
      ⟨hstop, _⟩ | ⟨c, x, hc, hcn, hcp, hx, _, _, hstep⟩
    · exact ⟨cur, a, hstop, rfl, le_refl _, hcur, fun _ _ => rfl, List.Perm.refl _⟩
    · obtain ⟨cur', a', hrun, hl, hle, hle', hframe, hperm⟩ :=
        ih (n - c) (by omega) c hc (a.set cur x) rfl hcn (by simp; omega)
      refine ⟨cur', a', hstep.trans hrun, by simpa using hl, by omega, hle', ?_, ?_⟩
      · intro j hj
        rw [hframe j (by omega), getElem?_set_of_lt j x (by omega), if_neg (by omega)]
      · refine hperm.trans ?_
        have h1 : (a.set cur e)[cur]? = some e := by
          rw [getElem?_set_of_lt cur e (by omega)]; simp
        have h2 : (a.set cur e)[c]? = some x := by
          rw [getElem?_set_of_lt c e (by omega), if_neg (by omega)]; exact hx
        have h3 := set_set_perm e x (a.set cur e) cur c h1 h2
        simpa [List.set_set] using h3

theorem heap_sort_down_loop_ordered {α : Type} {compare : α → α → Int}
    (hc : TotalPreorder compare) (n : Nat) (e : α) :
    ∀ (m cur : Nat) (hpos : 0 < cur) (a : List α) (cur' : Nat) (a' : List α),
      n - cur = m → cur ≤ n → n < a.length →
      heap_sort_down_loop compare n e cur hpos a = .ok (cur', a') →
      DownInv compare n cur (a.set cur e) → Ordered compare (a'.set cur' e) n := by
  intro m
  induction m using Nat.strong_induction_on with
  | _ m ih =>
    intro cur hpos a cur' a' hm hcur hlen hrun hinv
    have hv : ∀ j, (a.set cur e)[j]? = if cur = j then some e else a[j]? :=
      fun j => getElem?_set_of_lt j e (by omega)
    rcases heap_sort_down_loop_cases compare n e cur hpos a hlen with
      ⟨hstop, hkids⟩ | ⟨c, x, hcpos, hcn, hcp, hx, hlt, hother, hstep⟩
    · rw [hstop] at hrun
      cases hrun
      intro i hi2 hin pp cc hpp hcc
      by_cases hpar : i / 2 = cur
      · rw [hv, if_pos hpar.symm] at hpp
        rw [hv, if_neg (by omega)] at hcc
        cases hpp
        exact hkids hc i cc hin hpar hcc
      · exact hinv.1 i hi2 hin hpar pp cc hpp hcc
    · rw [hstep] at hrun
      have hxe : 0 ≤ compare x e := le_of_lt (hc.pos_of_neg hlt)
      have hw : ∀ j, ((a.set cur x).set c e)[j]? =
          if c = j then some e else if cur = j then some x else a[j]? := by
        intro j
        rw [getElem?_set_of_lt j e (by simp; omega), getElem?_set_of_lt j x (by omega)]
      refine ih (n - c) (by omega) c hcpos (a.set cur x) cur' a' rfl hcn (by simp; omega)
        hrun ⟨?_, ?_⟩
      · intro i hi2 hin hine pp cc hpp hcc
        rw [hw] at hpp hcc
        by_cases hic : i = cur
        · subst hic
          rw [if_neg (by omega), if_neg (by omega)] at hpp
          rw [if_neg (by omega), if_pos rfl] at hcc
          cases hcc
          refine hinv.2 hi2 c hcn hcp pp x ?_ ?_
          · rw [hv, if_neg (by omega)]; exact hpp
          · rw [hv, if_neg (by omega)]; exact hx
        · by_cases hpar : i / 2 = cur
          · rw [if_neg (by omega), if_pos hpar.symm] at hpp
            cases hpp
            by_cases hi : i = c
            · rw [if_pos hi.symm] at hcc
              cases hcc
              exact hxe
            · rw [if_neg (by omega), if_neg (by omega)] at hcc
              exact hother hc i cc hin hpar hi hcc
          · rw [if_neg (by omega), if_neg (by omega)] at hpp
            rw [if_neg (by omega), if_neg (by omega)] at hcc
            refine hinv.1 i hi2 hin hpar pp cc ?_ ?_
            · rw [hv, if_neg (by omega)]; exact hpp
            · rw [hv, if_neg (by omega)]; exact hcc
      · intro h2 g hgn hgp gg y hgg hy
        rw [hw] at hgg hy
        rw [if_neg (by omega), if_pos (by omega)] at hgg
        rw [if_neg (by omega), if_neg (by omega)] at hy
        cases hgg
        refine hinv.1 g (by omega) hgn (by omega) x y ?_ ?_
        · rw [hv, if_neg (by omega), hgp]; exact hx
        · rw [hv, if_neg (by omega)]; exact hy


/-! ## Slots `1 .. n` of an array -/

theorem getElem?_drop_one_take {α : Type} (a : List α) (n k : Nat) :
    ((a.drop 1).take n)[k]? = if k < n then a[k + 1]? else none := by
  rw [List.getElem?_take]
  split
  · rw [List.getElem?_drop, Nat.add_comm]
  · rfl

theorem drop_one_take_set_last {α : Type} (a : List α) (k : Nat) (e : α)
    (h : k + 1 < a.length) :
    ((a.set (k + 1) e).drop 1).take (k + 1) = (a.drop 1).take k ++ [e] := by
  have hlen : ((a.drop 1).take k).length = k := by
    rw [List.length_take, List.length_drop]
    omega
  apply List.ext_getElem?
  intro j
  rw [getElem?_drop_one_take, getElem?_set_of_lt _ _ h]
  by_cases hj : j < k
  · rw [if_pos (by omega), if_neg (by omega), List.getElem?_append_left (by omega),
      getElem?_drop_one_take, if_pos hj]
  · by_cases hjk : j = k
    · subst hjk
      rw [if_pos (by omega), if_pos rfl, List.getElem?_append_right (by omega), hlen]
      simp
    · rw [if_neg (by omega)]
      rw [List.getElem?_eq_none (by simp; omega)]

/-- Two arrays that are permutations of each other and agree at slot 0 and at every
slot above `n` hold the same elements, up to order, in the slots `1 .. n`. -/
theorem perm_slots {α : Type} (a b : List α) (n : Nat) (hperm : a.Perm b)
    (hframe : ∀ j, j = 0 ∨ n < j → a[j]? = b[j]?) :
    ((a.drop 1).take n).Perm ((b.drop 1).take n) := by
  have hsplit : ∀ l : List α, l = l.take 1 ++ ((l.drop 1).take n ++ (l.drop 1).drop n) := by
    intro l
    rw [List.take_append_drop, List.take_append_drop]
  have h0 : a.take 1 = b.take 1 := by
    apply List.ext_getElem?
    intro j
    rw [List.getElem?_take, List.getElem?_take]
    split
    · exact hframe j (by omega)
    · rfl
  have h1 : (a.drop 1).drop n = (b.drop 1).drop n := by
    apply List.ext_getElem?
    intro j
    rw [List.getElem?_drop, List.getElem?_drop, List.getElem?_drop, List.getElem?_drop]
    exact hframe _ (by omega)
  have h2 := hperm
  rw [hsplit a, hsplit b, h0, h1] at h2
  exact (List.perm_append_right_iff _).1 ((List.perm_append_left_iff _).1 h2)

theorem set_eq_self_of_getElem? {α : Type} (a : List α) (i : Nat) (x : α)
    (h : a[i]? = some x) : a.set i x = a := by
  apply List.ext_getElem?
  intro j
  rw [List.getElem?_set]
  split
  · rename_i hij
    subst hij
    have hlt : i < a.length := by
      by_contra hge
      rw [List.getElem?_eq_none (by omega)] at h
      cases h
    rw [if_pos hlt, h]
  · rfl

theorem mem_slots {α : Type} (a : List α) (n : Nat) (x : α)
    (h : x ∈ (a.drop 1).take n) : ∃ i, 1 ≤ i ∧ i ≤ n ∧ a[i]? = some x := by
  obtain ⟨k, hk⟩ := List.mem_iff_getElem?.1 h
  rw [getElem?_drop_one_take] at hk
  split at hk
  · exact ⟨k + 1, by omega, by omega, hk⟩
  · cases hk

/-- In a heap-ordered array the element at index 1 is not bigger than any element of
the slots `1 .. n`. -/
theorem Ordered.root_le {α : Type} {compare : α → α → Int} (hc : TotalPreorder compare)
    {a : List α} {n : Nat} (ho : Ordered compare a n) (r : α) (hr : a[1]? = some r) :
    ∀ i, 1 ≤ i → i ≤ n → ∀ x, a[i]? = some x → 0 ≤ compare r x := by
  intro i
  induction i using Nat.strong_induction_on with
  | _ i ih =>
    intro h1 hn x hx
    by_cases hi : i = 1
    · subst hi
      rw [hr] at hx
      cases hx
      exact hc.refl _
    · have hlt : i < a.length := by
        by_contra hge
        rw [List.getElem?_eq_none (by omega)] at hx
        cases hx
      obtain ⟨p, hp⟩ := exists_getElem?_of_lt (show i / 2 < a.length by omega)
      exact hc.trans _ _ _ (ih (i / 2) (by omega) (by omega) (by omega) p hp)
        (ho i (by omega) hn p x hp hx)


/-! ## `heap_sort_up` and `heap_sort_down` -/

theorem heap_sort_up_spec {α : Type} (compare : α → α → Int) (h : Heap α)
    (hlen : h.size < h.elements.length) :
    ∃ h', heap_sort_up compare h = .ok h' ∧ h'.size = h.size ∧ h'.capacity = h.capacity ∧
      h'.elements.length = h.elements.length ∧ h'.elements.Perm h.elements ∧
      (∀ j, j = 0 ∨ h.size < j → h'.elements[j]? = h.elements[j]?) ∧
      (TotalPreorder compare → Ordered compare h.elements (h.size - 1) →
        Ordered compare h'.elements h.size) := by
  unfold heap_sort_up
  split
  · rename_i hgt
    obtain ⟨e, he⟩ := exists_getElem?_of_lt hlen
    obtain ⟨cur', a', hrun, hl, hle, hpos, hframe, hperm⟩ :=
      heap_sort_up_loop_ok compare e h.size h.elements hlen
    have hw := writeAt_of_lt e (show cur' < a'.length by omega)
    simp only [readAt_of_getElem? he, hrun, hw, bind, Except.bind, pure, Except.pure]
    refine ⟨_, rfl, rfl, rfl, by simpa using hl, ?_, ?_, ?_⟩
    · simpa [set_eq_self_of_getElem? _ _ _ he] using hperm
    · intro j hj
      show (a'.set cur' e)[j]? = h.elements[j]?
      rw [getElem?_set_of_lt j e (by omega), if_neg (by omega)]
      exact hframe j hj
    · intro hc ho
      show Ordered compare (a'.set cur' e) h.size
      refine heap_sort_up_loop_ordered hc h.size e h.size h.elements cur' a' (by omega)
        (le_refl _) hlen hrun ?_
      rw [set_eq_self_of_getElem? _ _ _ he]
      refine ⟨?_, ?_⟩
      · intro i hi2 hin hine p c hp hcc
        exact ho i hi2 (by omega) p c hp hcc
      · intro _ c hcn hcp
        omega
  · rename_i hle
    refine ⟨h, rfl, rfl, rfl, rfl, List.Perm.refl _, fun _ _ => rfl, ?_⟩
    intro _ _ i hi2 hin
    omega

theorem heap_sort_down_spec {α : Type} (compare : α → α → Int) (h : Heap α)
    (hlen : h.size < h.elements.length) :
    ∃ h', heap_sort_down compare h = .ok h' ∧ h'.size = h.size ∧
      h'.capacity = h.capacity ∧ h'.elements.length = h.elements.length ∧
      h'.elements.Perm h.elements ∧
      (∀ j, j = 0 ∨ h.size < j → h'.elements[j]? = h.elements[j]?) ∧
      (TotalPreorder compare →
        (∀ i, 2 ≤ i → i ≤ h.size → i / 2 ≠ 1 → ∀ p c, h.elements[i / 2]? = some p →
          h.elements[i]? = some c → 0 ≤ compare p c) →
        Ordered compare h'.elements h.size) := by
  unfold heap_sort_down
  split
  · rename_i hgt
    obtain ⟨e, he⟩ := exists_getElem?_of_lt (show 1 < h.elements.length by omega)
    obtain ⟨cur', a', hrun, hl, hle, hle', hframe, hperm⟩ :=
      heap_sort_down_loop_ok compare h.size e (h.size - 1) 1 (by decide) h.elements rfl
        (by omega) hlen
    have hw := writeAt_of_lt e (show cur' < a'.length by omega)
    simp only [readAt_of_getElem? he, hrun, hw, bind, Except.bind, pure, Except.pure]
    refine ⟨_, rfl, rfl, rfl, by simpa using hl, ?_, ?_, ?_⟩
    · simpa [set_eq_self_of_getElem? _ _ _ he] using hperm
    · intro j hj
      show (a'.set cur' e)[j]? = h.elements[j]?
      rw [getElem?_set_of_lt j e (by omega), if_neg (by omega)]
      exact hframe j (by omega)
    · intro hc ho
      show Ordered compare (a'.set cur' e) h.size
      refine heap_sort_down_loop_ordered hc h.size e (h.size - 1) 1 (by decide) h.elements
        cur' a' rfl (by omega) hlen hrun ?_
      rw [set_eq_self_of_getElem? _ _ _ he]
      refine ⟨ho, ?_⟩
      intro h2
      omega
  · rename_i hle
    refine ⟨h, rfl, rfl, rfl, rfl, List.Perm.refl _, fun _ _ => rfl, ?_⟩
    intro _ _ i hi2 hin
    omega

/-! ## `heap_push` and `heap_pop` -/

theorem heap_push_spec {α : Type} (compare : α → α → Int) (h : Heap α) (e : α)
    (hlen : h.size + 1 < h.elements.length) :
    ∃ h', heap_push compare h e = .ok h' ∧ h'.size = h.size + 1 ∧
      h'.capacity = h.capacity ∧ h'.elements.length = h.elements.length ∧
      (stored h').Perm (e :: stored h) ∧
      (∀ j, j = 0 ∨ h.size + 1 < j → h'.elements[j]? = h.elements[j]?) ∧
      (TotalPreorder compare → HeapOrdered compare h → HeapOrdered compare h') := by
  obtain ⟨h', hrun, hsz, hcap, hl, hperm, hframe, hord⟩ :=
    heap_sort_up_spec compare
      { h with size := h.size + 1, elements := h.elements.set (h.size + 1) e }
      (by simpa using hlen)
  simp only at hsz hcap hl hperm hframe hord
  refine ⟨h', ?_, hsz, hcap, by simpa using hl, ?_, ?_, ?_⟩
  · unfold heap_push
    simp only [writeAt_of_lt e hlen, bind, Except.bind]
    exact hrun
  · unfold stored
    rw [hsz]
    refine (perm_slots _ _ (h.size + 1) hperm hframe).trans ?_
    rw [drop_one_take_set_last _ _ _ hlen]
    exact List.perm_append_singleton _ _
  · intro j hj
    rw [hframe j hj, getElem?_set_of_lt j e hlen, if_neg (by omega)]
  · intro hc ho
    unfold HeapOrdered
    rw [hsz]
    refine hord hc ?_
    intro i hi2 hin p c hp hcc
    rw [getElem?_set_of_lt _ e hlen, if_neg (by omega)] at hp hcc
    exact ho i hi2 (by omega) p c hp hcc

theorem heap_pop_spec {α : Type} (compare : α → α → Int) (h : Heap α)
    (hpos : 0 < h.size) (hlen : h.size < h.elements.length) :
    ∃ e h', heap_pop compare h = .ok (e, h') ∧ h.elements[1]? = some e ∧
      h'.size = h.size - 1 ∧ h'.capacity = h.capacity ∧
      h'.elements.length = h.elements.length ∧
      (e :: stored h').Perm (stored h) ∧
      (∀ j, j = 0 ∨ h.size ≤ j → h'.elements[j]? = h.elements[j]?) ∧
      (TotalPreorder compare → HeapOrdered compare h → HeapOrdered compare h') := by
  obtain ⟨e, he⟩ := exists_getElem?_of_lt (show 1 < h.elements.length by omega)
  obtain ⟨last, hlast⟩ := exists_getElem?_of_lt hlen
  have h1 : 1 < h.elements.length := by omega
  obtain ⟨h', hrun, hsz, hcap, hl, hperm, hframe, hord⟩ :=
    heap_sort_down_spec compare
      { h with size := h.size - 1, elements := h.elements.set 1 last }
      (by simp; omega)
  simp only at hsz hcap hl hperm hframe hord
  refine ⟨e, h', ?_, he, hsz, hcap, by simpa using hl, ?_, ?_, ?_⟩
  · unfold heap_pop
    simp only [hpos, if_true, readAt_of_getElem? he, readAt_of_getElem? hlast,
      writeAt_of_lt last h1, bind, Except.bind, hrun, pure, Except.pure]
  · have hk : h.size - 1 + 1 = h.size := by omega
    unfold stored
    rw [hsz]
    have p1 := perm_slots _ _ (h.size - 1) hperm hframe
    have hset := drop_one_take_set_last (h.elements.set 1 last) (h.size - 1) e
      (by simp; omega)
    rw [hk] at hset
    have p2 : ((h.elements.set 1 last).set h.size e).Perm h.elements :=
      set_set_perm e last h.elements 1 h.size he hlast
    have p3 := perm_slots _ _ h.size p2 (by
      intro j hj
      rw [getElem?_set_of_lt j e (by simp; omega), if_neg (by omega),
        getElem?_set_of_lt j last h1, if_neg (by omega)])
    rw [hset] at p3
    exact ((List.perm_append_singleton e _).symm.trans (p1.append_right [e])).trans p3
  · intro j hj
    rw [hframe j (by omega), getElem?_set_of_lt j last h1]
    split
    · rename_i h1j
      subst h1j
      have hs : h.size = 1 := by omega
      rw [hs] at hlast
      exact hlast.symm
    · rfl
  · intro hc ho
    unfold HeapOrdered
    rw [hsz]
    refine hord hc ?_
    intro i hi2 hin hpar p c hp hcc
    rw [getElem?_set_of_lt _ last h1, if_neg (by omega)] at hp hcc
    exact ho i hi2 (by omega) p c hp hcc

/-! ## `heap_create` and the reachable states -/

theorem heap_create_eq_some {α : Type} (w sizeofType : Nat) (junk : Nat → α)
    (capacity : Nat) (h : Heap α)
    (hcreate : heap_create w sizeofType true true junk capacity = some h) :
    h.size = 0 ∧ h.capacity = capacity ∧
      h.elements.length =
        (sizeofType * ((capacity + 1) % 2 ^ w)) % 2 ^ w / sizeofType := by
  simp only [heap_create, Bool.not_true, Bool.false_eq_true, if_false, Option.some.injEq]
    at hcreate
  subst hcreate
  simp

/-- When the byte count `sizeof(type) * (capacity + 1)` does not wrap, a successful
`create` returns an empty heap with `capacity + 1` slots. -/
theorem heap_create_wellFormed {α : Type} (w sizeofType : Nat) (junk : Nat → α)
    (capacity : Nat) (h : Heap α) (hs : 0 < sizeofType)
    (hfit : sizeofType * (capacity + 1) < 2 ^ w)
    (hcreate : heap_create w sizeofType true true junk capacity = some h) :
    h.size = 0 ∧ h.capacity = capacity ∧ h.elements.length = capacity + 1 := by
  obtain ⟨h1, h2, h3⟩ := heap_create_eq_some w sizeofType junk capacity h hcreate
  refine ⟨h1, h2, ?_⟩
  have hle : capacity + 1 ≤ sizeofType * (capacity + 1) := Nat.le_mul_of_pos_left _ hs
  rw [h3, Nat.mod_eq_of_lt (show capacity + 1 < 2 ^ w by omega), Nat.mod_eq_of_lt hfit,
    Nat.mul_div_cancel_left _ hs]

/-- When either allocation fails `create` returns no heap. -/
theorem heap_create_allocation_failure {α : Type} (w sizeofType : Nat)
    (recordOk elementsOk : Bool) (junk : Nat → α) (capacity : Nat)
    (hfail : recordOk = false ∨ elementsOk = false) :
    heap_create w sizeofType recordOk elementsOk junk capacity = none := by
  rcases hfail with h | h
  · simp [heap_create, h]
  · simp [heap_create, h]

theorem heap_push_inBounds {α : Type} {compare : α → α → Int} {h h' : Heap α} {e : α}
    (hrun : heap_push compare h e = .ok h') : h.size + 1 < h.elements.length := by
  by_contra hge
  simp [heap_push, writeAt, hge, bind, Except.bind] at hrun

/-- Without any assumption on the comparator: a state reached from an empty heap has
its occupied slots inside the array, keeps the capacity and the number of slots of
the start, and has `size <= capacity`. -/
theorem Reachable.bounds {α : Type} {compare : α → α → Int} {h0 h : Heap α}
    (h0size : h0.size = 0) (hr : Reachable compare h0 h) :
    (h.size = 0 ∨ h.size < h.elements.length) ∧ h.capacity = h0.capacity ∧
      (h.size ≤ h.capacity) ∧ h.elements.length = h0.elements.length := by
  induction hr with
  | start => exact ⟨Or.inl h0size, rfl, by omega, rfl⟩
  | push h h' e _ hlt hrun ih =>
    obtain ⟨_, hcap, _, hl⟩ := ih
    have hin := heap_push_inBounds hrun
    obtain ⟨h'', hrun', hsz, hcap', hl', _⟩ := heap_push_spec compare h e hin
    rw [hrun] at hrun'
    cases hrun'
    exact ⟨Or.inr (by omega), by omega, by omega, by omega⟩
  | pop h h' e _ hpos hrun ih =>
    obtain ⟨hin, hcap, hle, hl⟩ := ih
    obtain ⟨e', h'', hrun', _, hsz, hcap', hl', _⟩ :=
      heap_pop_spec compare h hpos (by omega)
    rw [hrun] at hrun'
    cases hrun'
    exact ⟨Or.inr (by omega), by omega, by omega, by omega⟩

/-- For a total preorder, every state reached from an empty heap satisfies the
heap-order invariant. -/
theorem Reachable.heapOrdered {α : Type} {compare : α → α → Int}
    (hc : TotalPreorder compare) {h0 h : Heap α} (h0size : h0.size = 0)
    (hr : Reachable compare h0 h) : HeapOrdered compare h := by
  induction hr with
  | start =>
    intro i hi2 hin
    omega
  | push h h' e hr' hlt hrun ih =>
    obtain ⟨h'', hrun', _, _, _, _, _, hord⟩ :=
      heap_push_spec compare h e (heap_push_inBounds hrun)
    rw [hrun] at hrun'
    cases hrun'
    exact hord hc ih
  | pop h h' e hr' hpos hrun ih =>
    have hb := Reachable.bounds h0size hr'
    obtain ⟨e', h'', hrun', _, _, _, _, _, _, hord⟩ :=
      heap_pop_spec compare h hpos (by omega)
    rw [hrun] at hrun'
    cases hrun'
    exact hord hc ih


/-! ## Sequences of calls -/

theorem pushAll_spec {α : Type} (compare : α → α → Int) :
    ∀ (xs : List α) (h : Heap α), h.size + xs.length < h.elements.length →
      ∃ h1, pushAll compare h xs = .ok h1 ∧ h1.size = h.size + xs.length ∧
        h1.elements.length = h.elements.length ∧ (stored h1).Perm (xs ++ stored h) ∧
        (TotalPreorder compare → HeapOrdered compare h → HeapOrdered compare h1) := by
  intro xs
  induction xs with
  | nil =>
    intro h _
    exact ⟨h, rfl, rfl, rfl, List.Perm.refl _, fun _ ho => ho⟩
  | cons x xs ih =>
    intro h hlen
    simp only [List.length_cons] at hlen
    obtain ⟨h', hrun, hsz, _, hl, hperm, _, hord⟩ :=
      heap_push_spec compare h x (by omega)
    obtain ⟨h1, hrun1, hsz1, hl1, hperm1, hord1⟩ := ih h' (by omega)
    refine ⟨h1, ?_, ?_, by omega, ?_, fun hc ho => hord1 hc (hord hc ho)⟩
    · simp only [pushAll, hrun, bind, Except.bind]
      exact hrun1
    · simp only [List.length_cons]
      omega
    · refine hperm1.trans ?_
      refine (List.Perm.append_left xs hperm).trans ?_
      exact List.perm_middle

theorem popN_spec {α : Type} {compare : α → α → Int} (hc : TotalPreorder compare) :
    ∀ (n : Nat) (h : Heap α), h.size = n → n < h.elements.length → HeapOrdered compare h →
      ∃ ys h2, popN compare n h = .ok (ys, h2) ∧ ys.Perm (stored h) ∧
        ys.Pairwise (fun a b => 0 ≤ compare a b) ∧ h2.size = 0 := by
  intro n
  induction n with
  | zero =>
    intro h hsz _ _
    refine ⟨[], h, rfl, ?_, List.Pairwise.nil, hsz⟩
    simp [stored, hsz]
  | succ n ih =>
    intro h hsz hlen ho
    obtain ⟨e, h', hrun, he, hsz', _, hl, hperm, _, hord⟩ :=
      heap_pop_spec compare h (by omega) (by omega)
    obtain ⟨ys, h2, hrun2, hperm2, hpw, hsz2⟩ := ih h' (by omega) (by omega) (hord hc ho)
    refine ⟨e :: ys, h2, ?_, ?_, ?_, hsz2⟩
    · simp only [popN, hrun, hrun2, bind, Except.bind, pure, Except.pure]
    · exact (List.Perm.cons e hperm2).trans hperm
    · refine List.Pairwise.cons ?_ hpw
      intro y hy
      have hy1 : y ∈ stored h :=
        hperm.subset (List.mem_cons_of_mem e (hperm2.subset hy))
      obtain ⟨i, hi1, hin, hiy⟩ := mem_slots _ _ _ hy1
      exact Ordered.root_le hc ho e he i hi1 hin y hiy

/-! ## The claims -/

/-- Claim C1.  For a total-preorder comparator and a heap state reachable from a
successful `create(capacity)` by `push` calls made with `size < capacity` and `pop`
calls made with `size > 0`: `pop` on a non-empty heap returns an element `e` with
`compare e x >= 0` for every element `x` stored just before the call. -/
theorem pop_returns_minimum {α : Type} {compare : α → α → Int}
    (hc : TotalPreorder compare) (w sizeofType : Nat) (junk : Nat → α) (capacity : Nat)
    (h0 h : Heap α)
    (hcreate : heap_create w sizeofType true true junk capacity = some h0)
    (hr : Reachable compare h0 h) (hpos : 0 < h.size) :
    ∃ e h', heap_pop compare h = .ok (e, h') ∧ ∀ x ∈ stored h, 0 ≤ compare e x := by
  have h0size := (heap_create_eq_some w sizeofType junk capacity h0 hcreate).1
  have hb := Reachable.bounds h0size hr
  have ho := Reachable.heapOrdered hc h0size hr
  obtain ⟨e, h', hrun, he, _⟩ := heap_pop_spec compare h hpos (by omega)
  refine ⟨e, h', hrun, ?_⟩
  intro x hx
  obtain ⟨i, hi1, hin, hix⟩ := mem_slots _ _ _ hx
  exact Ordered.root_le hc ho e he i hi1 hin x hix

theorem pop_returns_minimum_witness :
    TotalPreorder ascending ∧
    heap_create 64 4 true true (fun _ => (0 : Int)) 2 = some ⟨2, 0, [0, 0, 0]⟩ ∧
    Reachable ascending ⟨2, 0, [0, 0, 0]⟩ ⟨2, 2, [0, 3, 5]⟩ ∧ 0 < 2 ∧
    ∃ e h', heap_pop ascending ⟨2, 2, [0, 3, 5]⟩ = .ok (e, h') ∧
      ∀ x ∈ stored (⟨2, 2, [0, 3, 5]⟩ : Heap Int), 0 ≤ ascending e x := by
  have hcreate : heap_create 64 4 true true (fun _ => (0 : Int)) 2 = some ⟨2, 0, [0, 0, 0]⟩ := by
    decide
  have hreach : Reachable ascending (⟨2, 0, [0, 0, 0]⟩ : Heap Int) ⟨2, 2, [0, 3, 5]⟩ := by
    refine Reachable.push ⟨2, 1, [0, 5, 0]⟩ _ 3 ?_ (by decide) ?_
    · refine Reachable.push ⟨2, 0, [0, 0, 0]⟩ _ 5 Reachable.start (by decide) ?_
      simp [heap_push, heap_sort_up, writeAt, bind, Except.bind, pure, Except.pure]
    · simp [heap_push, heap_sort_up, heap_sort_up_loop, readAt, writeAt, ascending, bind,
        Except.bind, pure, Except.pure]
  exact ⟨ascending_totalPreorder, hcreate, hreach, by decide,
    pop_returns_minimum ascending_totalPreorder 64 4 (fun _ => (0 : Int)) 2 _ _ hcreate hreach
      (by decide)⟩


/-- Claim C2.  Sort equivalence: for a total-preorder comparator, a heap freshly
returned by `create(capacity)` with its `capacity + 1` slots, and a list `xs` of at
most `capacity` elements, pushing the elements of `xs` in order and then popping
`xs.length` times returns normally, the popped list is a permutation of `xs`, it is
ordered by the comparator (every popped element is not bigger than the ones popped
after it, in particular than the next one), and the heap is empty afterwards. -/
theorem push_all_pop_all_sorts {α : Type} {compare : α → α → Int}
    (hc : TotalPreorder compare) (w sizeofType : Nat) (junk : Nat → α) (capacity : Nat)
    (h0 : Heap α) (xs : List α)
    (hcreate : heap_create w sizeofType true true junk capacity = some h0)
    (hslots : h0.elements.length = capacity + 1) (hn : xs.length ≤ capacity) :
    ∃ h1 ys h2, pushAll compare h0 xs = .ok h1 ∧ popN compare xs.length h1 = .ok (ys, h2) ∧
      ys.Perm xs ∧ ys.Pairwise (fun a b => 0 ≤ compare a b) ∧
      ys.Chain' (fun a b => 0 ≤ compare a b) ∧ h2.size = 0 := by
  obtain ⟨hsize, _, _⟩ := heap_create_eq_some w sizeofType junk capacity h0 hcreate
  obtain ⟨h1, hrun1, hsz1, hl1, hperm1, hord1⟩ := pushAll_spec compare xs h0 (by omega)
  have ho0 : HeapOrdered compare h0 := by
    intro i hi2 hin
    omega
  obtain ⟨ys, h2, hrun2, hperm2, hpw, hsz2⟩ :=
    popN_spec hc xs.length h1 (by omega) (by omega) (hord1 hc ho0)
  refine ⟨h1, ys, h2, hrun1, hrun2, ?_, hpw, hpw.chain', hsz2⟩
  refine hperm2.trans (hperm1.trans ?_)
  simp [stored, hsize]

/-- The concrete scenario: capacity 4, ascending integers, push 5, 3, 8, 1, then four
pops yield 1, 3, 5, 8. -/
theorem push_all_pop_all_sorts_witness :
    TotalPreorder ascending ∧
    heap_create 64 4 true true (fun _ => (0 : Int)) 4 = some ⟨4, 0, [0, 0, 0, 0, 0]⟩ ∧
    (⟨4, 0, [0, 0, 0, 0, 0]⟩ : Heap Int).elements.length = 4 + 1 ∧
    ([5, 3, 8, 1] : List Int).length ≤ 4 ∧
    (∃ h1 ys h2, pushAll ascending ⟨4, 0, [0, 0, 0, 0, 0]⟩ [5, 3, 8, 1] = .ok h1 ∧
      popN ascending 4 h1 = .ok (ys, h2) ∧ ys.Perm [5, 3, 8, 1] ∧
      ys.Pairwise (fun a b => 0 ≤ ascending a b) ∧
      ys.Chain' (fun a b => 0 ≤ ascending a b) ∧ h2.size = 0) ∧
    pushAll ascending ⟨4, 0, [0, 0, 0, 0, 0]⟩ [5, 3, 8, 1] = .ok ⟨4, 4, [0, 1, 3, 8, 5]⟩ ∧
    popN ascending 4 ⟨4, 4, [0, 1, 3, 8, 5]⟩ = .ok ([1, 3, 5, 8], ⟨4, 0, [0, 8, 8, 8, 5]⟩) := by
  refine ⟨ascending_totalPreorder, by decide, rfl, by decide,
    push_all_pop_all_sorts ascending_totalPreorder 64 4 (fun _ => (0 : Int)) 4
      ⟨4, 0, [0, 0, 0, 0, 0]⟩ [5, 3, 8, 1] (by decide) rfl (by decide), ?_, ?_⟩
  · simp [pushAll, heap_push, heap_sort_up, heap_sort_up_loop, readAt, writeAt, ascending,
      bind, Except.bind, pure, Except.pure]
  · simp [popN, heap_pop, heap_sort_down, heap_sort_down_loop, readAt, writeAt, ascending,
      bind, Except.bind, pure, Except.pure]

/-- Claim C3.  On a heap laid out as the data model says, `pop` takes the
empty-heap error branch if and only if `size == 0`; on an empty heap it returns no
element, and on a heap with `size > 0` it returns an element. -/
theorem pop_fails_iff_empty {α : Type} (compare : α → α → Int) (h : Heap α)
    (hwf : WellFormed h) :
    (heap_pop compare h = .error .emptyHeap ↔ h.size = 0) ∧
    (h.size = 0 → ∀ e h', heap_pop compare h ≠ .ok (e, h')) ∧
    (0 < h.size → ∃ e h', heap_pop compare h = .ok (e, h')) := by
  obtain ⟨hl, hle⟩ := hwf
  have hempty : h.size = 0 → heap_pop compare h = .error .emptyHeap := by
    intro h0
    simp [heap_pop, h0]
  have hfull : 0 < h.size → ∃ e h', heap_pop compare h = .ok (e, h') := by
    intro hpos
    obtain ⟨e, h', hrun, _⟩ := heap_pop_spec compare h hpos (by omega)
    exact ⟨e, h', hrun⟩
  refine ⟨⟨?_, hempty⟩, ?_, hfull⟩
  · intro herr
    by_contra hne
    obtain ⟨e, h', hrun⟩ := hfull (by omega)
    rw [hrun] at herr
    cases herr
  · intro h0 e h' hrun
    rw [hempty h0] at hrun
    cases hrun

theorem pop_fails_iff_empty_witness :
    WellFormed (⟨2, 0, [0, 0, 0]⟩ : Heap Int) ∧
    ((heap_pop ascending (⟨2, 0, [0, 0, 0]⟩ : Heap Int) = .error .emptyHeap ↔
        (⟨2, 0, [0, 0, 0]⟩ : Heap Int).size = 0) ∧
      ((⟨2, 0, [0, 0, 0]⟩ : Heap Int).size = 0 →
        ∀ e h', heap_pop ascending (⟨2, 0, [0, 0, 0]⟩ : Heap Int) ≠ .ok (e, h')) ∧
      (0 < (⟨2, 0, [0, 0, 0]⟩ : Heap Int).size →
        ∃ e h', heap_pop ascending (⟨2, 0, [0, 0, 0]⟩ : Heap Int) = .ok (e, h'))) :=
  ⟨⟨rfl, by decide⟩, pop_fails_iff_empty ascending ⟨2, 0, [0, 0, 0]⟩ ⟨rfl, by decide⟩⟩

/-- Claim C4, evaluated on the code.  On a heap with `capacity + 1` slots and
`size == capacity`, `push` does not report a full heap: it writes at index
`capacity + 1`, outside the allocated slots. -/
theorem push_at_capacity_writes_out_of_bounds {α : Type} (compare : α → α → Int)
    (h : Heap α) (e : α) (hwf : WellFormed h) (hfull : h.size = h.capacity) :
    heap_push compare h e = .error (.outOfBounds (h.capacity + 1)) := by
  obtain ⟨hl, _⟩ := hwf
  simp [heap_push, writeAt, hfull, hl, bind, Except.bind]

theorem push_at_capacity_writes_out_of_bounds_witness :
    WellFormed (⟨1, 1, [0, 5]⟩ : Heap Int) ∧
    (⟨1, 1, [0, 5]⟩ : Heap Int).size = (⟨1, 1, [0, 5]⟩ : Heap Int).capacity ∧
    heap_push ascending (⟨1, 1, [0, 5]⟩ : Heap Int) 3 = .error (.outOfBounds 2) :=
  ⟨⟨rfl, by decide⟩, rfl,
    push_at_capacity_writes_out_of_bounds ascending ⟨1, 1, [0, 5]⟩ 3 ⟨rfl, by decide⟩ rfl⟩

/-- Claim C5.  Round trip: on a heap with `size == 0` and `capacity >= 1`, `push(e)`
followed immediately by `pop()` returns exactly `e` and leaves `size == 0`. -/
theorem push_then_pop_returns_element {α : Type} (compare : α → α → Int) (h : Heap α)
    (e : α) (hwf : WellFormed h) (hsize : h.size = 0) (hcap : 1 ≤ h.capacity) :
    ∃ h1 h2, heap_push compare h e = .ok h1 ∧ heap_pop compare h1 = .ok (e, h2) ∧
      h2.size = 0 := by
  obtain ⟨hl, _⟩ := hwf
  obtain ⟨h1, hrun1, hsz1, _, hl1, hperm1, _⟩ := heap_push_spec compare h e (by omega)
  obtain ⟨e', h2, hrun2, _, hsz2, _, _, hperm2, _⟩ :=
    heap_pop_spec compare h1 (by omega) (by omega)
  have hs : stored h = [] := by simp [stored, hsize]
  have hs2 : stored h2 = [] := by
    unfold stored
    rw [hsz2, hsz1, hsize]
    simp
  rw [hs] at hperm1
  rw [hs2] at hperm2
  have hee : e' = e := by
    have := (hperm2.trans hperm1).subset (List.mem_singleton_self e')
    simpa using this
  subst hee
  exact ⟨h1, h2, hrun1, hrun2, by omega⟩

theorem push_then_pop_returns_element_witness :
    WellFormed (⟨1, 0, [0, 0]⟩ : Heap Int) ∧
    ∃ h1 h2, heap_push ascending (⟨1, 0, [0, 0]⟩ : Heap Int) 7 = .ok h1 ∧
      heap_pop ascending h1 = .ok (7, h2) ∧ h2.size = 0 :=
  ⟨⟨rfl, by decide⟩,
    push_then_pop_returns_element ascending ⟨1, 0, [0, 0]⟩ 7 ⟨rfl, by decide⟩ rfl (by decide)⟩


/-- Claim C6.  `push` preserves the heap-order invariant: for a total-preorder
comparator and a heap with `size < capacity` in which `elements[i/2]` is not bigger
than `elements[i]` for every `2 <= i <= size`, `push(e)` returns a heap of size
`size + 1` satisfying the same predicate for every `2 <= i <= size + 1`. -/
theorem push_preserves_heap_order {α : Type} {compare : α → α → Int}
    (hc : TotalPreorder compare) (h : Heap α) (e : α) (hwf : WellFormed h)
    (hlt : h.size < h.capacity) (ho : HeapOrdered compare h) :
    ∃ h', heap_push compare h e = .ok h' ∧ h'.size = h.size + 1 ∧
      ∀ i, 2 ≤ i → i ≤ h.size + 1 → ∀ p c, h'.elements[i / 2]? = some p →
        h'.elements[i]? = some c → 0 ≤ compare p c := by
  obtain ⟨hl, _⟩ := hwf
  obtain ⟨h', hrun, hsz, _, _, _, _, hord⟩ := heap_push_spec compare h e (by omega)
  refine ⟨h', hrun, hsz, ?_⟩
  have ho' := hord hc ho
  unfold HeapOrdered at ho'
  rw [hsz] at ho'
  exact ho'

theorem push_preserves_heap_order_witness :
    TotalPreorder ascending ∧ WellFormed (⟨3, 2, [0, 3, 5, 0]⟩ : Heap Int) ∧
    HeapOrdered ascending (⟨3, 2, [0, 3, 5, 0]⟩ : Heap Int) ∧
    ∃ h', heap_push ascending (⟨3, 2, [0, 3, 5, 0]⟩ : Heap Int) 1 = .ok h' ∧
      h'.size = 2 + 1 ∧
      ∀ i, 2 ≤ i → i ≤ 2 + 1 → ∀ p c, h'.elements[i / 2]? = some p →
        h'.elements[i]? = some c → 0 ≤ ascending p c := by
  have ho : HeapOrdered ascending (⟨3, 2, [0, 3, 5, 0]⟩ : Heap Int) := by
    intro i hi2 hin p c hp hcc
    have hi : i = 2 := by
      simp only at hin
      omega
    subst hi
    simp at hp hcc
    subst hp hcc
    decide
  exact ⟨ascending_totalPreorder, ⟨rfl, by decide⟩, ho,
    push_preserves_heap_order ascending_totalPreorder ⟨3, 2, [0, 3, 5, 0]⟩ 1 ⟨rfl, by decide⟩
      (by decide) ho⟩

/-- Claim C7.  `pop` preserves the heap-order invariant: for a total-preorder
comparator and a heap with `size > 0` in which `elements[i/2]` is not bigger than
`elements[i]` for every `2 <= i <= size`, `pop` returns a heap of size `size - 1`
satisfying the same predicate for every `2 <= i <= size - 1`. -/
theorem pop_preserves_heap_order {α : Type} {compare : α → α → Int}
    (hc : TotalPreorder compare) (h : Heap α) (hwf : WellFormed h)
    (hpos : 0 < h.size) (ho : HeapOrdered compare h) :
    ∃ e h', heap_pop compare h = .ok (e, h') ∧ h'.size = h.size - 1 ∧
      ∀ i, 2 ≤ i → i ≤ h.size - 1 → ∀ p c, h'.elements[i / 2]? = some p →
        h'.elements[i]? = some c → 0 ≤ compare p c := by
  obtain ⟨hl, _⟩ := hwf
  obtain ⟨e, h', hrun, _, hsz, _, _, _, _, hord⟩ :=
    heap_pop_spec compare h hpos (by omega)
  refine ⟨e, h', hrun, hsz, ?_⟩
  have ho' := hord hc ho
  unfold HeapOrdered at ho'
  rw [hsz] at ho'
  exact ho'

/-- Popping the ordered heap `[_, 1, 3, 8, 5]` of size 4: the last element 5 goes to
the root, the sift-down promotes the left child 3 and places 5 at index 2, and the
heap `[_, 3, 5, 8]` of size 3 that is left is ordered.  Before the sift-down, with
5 at the root above 3, it was not. -/
theorem pop_preserves_heap_order_witness :
    TotalPreorder ascending ∧ WellFormed (⟨4, 4, [0, 1, 3, 8, 5]⟩ : Heap Int) ∧
    0 < (⟨4, 4, [0, 1, 3, 8, 5]⟩ : Heap Int).size ∧
    HeapOrdered ascending (⟨4, 4, [0, 1, 3, 8, 5]⟩ : Heap Int) ∧
    ¬ Ordered ascending ([0, 5, 3, 8, 5] : List Int) 3 ∧
    heap_pop ascending (⟨4, 4, [0, 1, 3, 8, 5]⟩ : Heap Int) =
      .ok (1, ⟨4, 3, [0, 3, 5, 8, 5]⟩) ∧
    ∃ e h', heap_pop ascending (⟨4, 4, [0, 1, 3, 8, 5]⟩ : Heap Int) = .ok (e, h') ∧
      h'.size = 4 - 1 ∧
      ∀ i, 2 ≤ i → i ≤ 4 - 1 → ∀ p c, h'.elements[i / 2]? = some p →
        h'.elements[i]? = some c → 0 ≤ ascending p c := by
  have ho : HeapOrdered ascending (⟨4, 4, [0, 1, 3, 8, 5]⟩ : Heap Int) := by
    intro i hi2 hin p c hp hcc
    have hi : i = 2 ∨ i = 3 ∨ i = 4 := by
      simp only at hin
      omega
    rcases hi with rfl | rfl | rfl
    · simp at hp hcc
      subst hp hcc
      decide
    · simp at hp hcc
      subst hp hcc
      decide
    · simp at hp hcc
      subst hp hcc
      decide
  have hval : heap_pop ascending (⟨4, 4, [0, 1, 3, 8, 5]⟩ : Heap Int) =
      .ok (1, ⟨4, 3, [0, 3, 5, 8, 5]⟩) := by
    simp [heap_pop, heap_sort_down, heap_sort_down_loop, readAt, writeAt, ascending, bind,
      Except.bind, pure, Except.pure]
  have hbefore : ¬ Ordered ascending ([0, 5, 3, 8, 5] : List Int) 3 := by
    intro hord
    have h2 := hord 2 (by decide) (by decide) 5 3 rfl rfl
    simp [ascending] at h2
  exact ⟨ascending_totalPreorder, ⟨rfl, by decide⟩, by decide, ho, hbefore, hval,
    pop_preserves_heap_order ascending_totalPreorder ⟨4, 4, [0, 1, 3, 8, 5]⟩ ⟨rfl, by decide⟩
      (by decide) ho⟩

/-- Claim C8.  Size and capacity invariant: in every state reachable from a
successful `create(capacity)` by `push` calls made with `size < capacity` and `pop`
calls made with `size > 0`, `size <= capacity` and the capacity field is the value
passed to `create`; a `push` made with `size < capacity` that returns has increased
`size` by exactly one and kept `capacity`, and it does return when the byte count of
`create` did not wrap; a `pop` made with `size > 0` returns, has decreased `size` by
exactly one and kept `capacity`. -/
theorem size_capacity_invariant {α : Type} (compare : α → α → Int) (w sizeofType : Nat)
    (junk : Nat → α) (capacity : Nat) (h0 h : Heap α)
    (hcreate : heap_create w sizeofType true true junk capacity = some h0)
    (hr : Reachable compare h0 h) :
    h.size ≤ h.capacity ∧ h.capacity = capacity ∧
    (∀ e h', h.size < h.capacity → heap_push compare h e = .ok h' →
      h'.size = h.size + 1 ∧ h'.capacity = h.capacity) ∧
    (0 < sizeofType → sizeofType * (capacity + 1) < 2 ^ w → ∀ e, h.size < h.capacity →
      ∃ h', heap_push compare h e = .ok h') ∧
    (0 < h.size → ∃ e h', heap_pop compare h = .ok (e, h') ∧ h'.size = h.size - 1 ∧
      h'.capacity = h.capacity) := by
  obtain ⟨h0size, h0cap, _⟩ := heap_create_eq_some w sizeofType junk capacity h0 hcreate
  obtain ⟨hin, hcap, hle, hl⟩ := Reachable.bounds h0size hr
  refine ⟨hle, by omega, ?_, ?_, ?_⟩
  · intro e h' _ hrun
    obtain ⟨h'', hrun', hsz, hcap', _⟩ :=
      heap_push_spec compare h e (heap_push_inBounds hrun)
    rw [hrun] at hrun'
    cases hrun'
    exact ⟨hsz, hcap'⟩
  · intro hs hfit e hlt
    obtain ⟨_, _, hl0⟩ :=
      heap_create_wellFormed w sizeofType junk capacity h0 hs hfit hcreate
    obtain ⟨h', hrun, _⟩ := heap_push_spec compare h e (by omega)
    exact ⟨h', hrun⟩
  · intro hpos
    obtain ⟨e, h', hrun, _, hsz, hcap', _⟩ := heap_pop_spec compare h hpos (by omega)
    exact ⟨e, h', hrun, hsz, hcap'⟩

theorem size_capacity_invariant_witness :
    heap_create 64 4 true true (fun _ => (0 : Int)) 2 = some ⟨2, 0, [0, 0, 0]⟩ ∧
    Reachable ascending (⟨2, 0, [0, 0, 0]⟩ : Heap Int) ⟨2, 1, [0, 5, 0]⟩ ∧
    (1 ≤ 2 ∧ (⟨2, 1, [0, 5, 0]⟩ : Heap Int).capacity = 2 ∧
      (∀ e h', 1 < 2 → heap_push ascending (⟨2, 1, [0, 5, 0]⟩ : Heap Int) e = .ok h' →
        h'.size = 1 + 1 ∧ h'.capacity = 2) ∧
      (0 < 4 → 4 * (2 + 1) < 2 ^ 64 → ∀ e, 1 < 2 →
        ∃ h', heap_push ascending (⟨2, 1, [0, 5, 0]⟩ : Heap Int) e = .ok h') ∧
      (0 < 1 → ∃ e h', heap_pop ascending (⟨2, 1, [0, 5, 0]⟩ : Heap Int) = .ok (e, h') ∧
        h'.size = 1 - 1 ∧ h'.capacity = 2)) := by
  have hcreate : heap_create 64 4 true true (fun _ => (0 : Int)) 2 = some ⟨2, 0, [0, 0, 0]⟩ := by
    decide
  have hreach : Reachable ascending (⟨2, 0, [0, 0, 0]⟩ : Heap Int) ⟨2, 1, [0, 5, 0]⟩ := by
    refine Reachable.push ⟨2, 0, [0, 0, 0]⟩ _ 5 Reachable.start (by decide) ?_
    simp [heap_push, heap_sort_up, writeAt, bind, Except.bind, pure, Except.pure]
  exact ⟨hcreate, hreach,
    size_capacity_invariant ascending 64 4 (fun _ => (0 : Int)) 2 _ _ hcreate hreach⟩

/-- Claim C9.  On a heap with `size > 0`, `pop` returns exactly the element stored
at index 1 before the call, and the heap it leaves is the result of `heap_sort_down`
on the heap of size `size - 1` whose slot 1 holds the element `last` of the old slot
`size`: when the loop runs, it runs from index 1 with `last` as the element being
placed and `last` is written at the index where it stops; otherwise `last` stays in
slot 1. -/
theorem pop_returns_top_and_sifts_last {α : Type} (compare : α → α → Int) (h : Heap α)
    (hwf : WellFormed h) (hpos : 0 < h.size) :
    ∃ top last h', h.elements[1]? = some top ∧ h.elements[h.size]? = some last ∧
      heap_pop compare h = .ok (top, h') ∧
      heap_sort_down compare
        { h with size := h.size - 1, elements := h.elements.set 1 last } = .ok h' ∧
      (1 < h.size - 1 → ∃ cur a',
        heap_sort_down_loop compare (h.size - 1) last 1 Nat.one_pos
          (h.elements.set 1 last) = .ok (cur, a') ∧ h'.elements = a'.set cur last) ∧
      (h.size - 1 ≤ 1 → h'.elements = h.elements.set 1 last) := by
  obtain ⟨hl, hle⟩ := hwf
  have h1 : 1 < h.elements.length := by omega
  obtain ⟨top, htop⟩ := exists_getElem?_of_lt h1
  obtain ⟨last, hlast⟩ := exists_getElem?_of_lt (show h.size < h.elements.length by omega)
  have hfirst : (h.elements.set 1 last)[1]? = some last := by
    rw [getElem?_set_of_lt 1 last h1, if_pos rfl]
  have hpop : ∀ h', heap_sort_down compare
      { h with size := h.size - 1, elements := h.elements.set 1 last } = .ok h' →
      heap_pop compare h = .ok (top, h') := by
    intro h' hrun
    unfold heap_pop
    simp only [hpos, if_true, readAt_of_getElem? htop, readAt_of_getElem? hlast,
      writeAt_of_lt last h1, bind, Except.bind, hrun, pure, Except.pure]
  by_cases hbig : 1 < h.size - 1
  · obtain ⟨cur, a', hrun, hl', _, hcur, _⟩ :=
      heap_sort_down_loop_ok compare (h.size - 1) last (h.size - 1 - 1) 1 Nat.one_pos
        (h.elements.set 1 last) rfl (by omega) (by simp; omega)
    have hw := writeAt_of_lt last (show cur < a'.length by simp at hl'; omega)
    have hsd : heap_sort_down compare
        { h with size := h.size - 1, elements := h.elements.set 1 last } =
        .ok { h with size := h.size - 1, elements := a'.set cur last } := by
      unfold heap_sort_down
      simp only [hbig, if_true, readAt_of_getElem? hfirst, hrun, hw, bind, Except.bind, pure,
        Except.pure]
    exact ⟨top, last, _, htop, hlast, hpop _ hsd, hsd, fun _ => ⟨cur, a', hrun, rfl⟩,
      fun hsmall => absurd hbig (by omega)⟩
  · have hsd : heap_sort_down compare
        { h with size := h.size - 1, elements := h.elements.set 1 last } =
        .ok { h with size := h.size - 1, elements := h.elements.set 1 last } := by
      unfold heap_sort_down
      simp only [hbig, if_false, pure, Except.pure]
    exact ⟨top, last, _, htop, hlast, hpop _ hsd, hsd, fun hb => absurd hb hbig,
      fun _ => rfl⟩

theorem pop_returns_top_and_sifts_last_witness :
    WellFormed (⟨3, 3, [0, 1, 3, 8]⟩ : Heap Int) ∧ 0 < 3 ∧
    ∃ top last h', (⟨3, 3, [0, 1, 3, 8]⟩ : Heap Int).elements[1]? = some top ∧
      (⟨3, 3, [0, 1, 3, 8]⟩ : Heap Int).elements[3]? = some last ∧
      heap_pop ascending (⟨3, 3, [0, 1, 3, 8]⟩ : Heap Int) = .ok (top, h') ∧
      heap_sort_down ascending
        { (⟨3, 3, [0, 1, 3, 8]⟩ : Heap Int) with
          size := 3 - 1, elements := ([0, 1, 3, 8] : List Int).set 1 last } = .ok h' ∧
      (1 < 3 - 1 → ∃ cur a',
        heap_sort_down_loop ascending (3 - 1) last 1 Nat.one_pos
          (([0, 1, 3, 8] : List Int).set 1 last) = .ok (cur, a') ∧
          h'.elements = a'.set cur last) ∧
      (3 - 1 ≤ 1 → h'.elements = ([0, 1, 3, 8] : List Int).set 1 last) :=
  ⟨⟨rfl, by decide⟩, by decide,
    pop_returns_top_and_sifts_last ascending ⟨3, 3, [0, 1, 3, 8]⟩ ⟨rfl, by decide⟩ (by decide)⟩

/-- Claim C10, evaluated on the code with a 64-bit `size_t` and 4-byte elements.
For `capacity = 2 ^ 62` the byte count `4 * (2 ^ 62 + 1)` wraps to 4: both
allocations succeed and `create` returns a heap of capacity `2 ^ 62` with one slot.
For the largest `size_t` value the slot count `capacity + 1` wraps to 0 and the heap
returned has no slot at all. -/
theorem heap_create_byte_count_wraps :
    heap_create 64 4 true true (fun _ => (0 : Int)) (2 ^ 62) = some ⟨2 ^ 62, 0, [0]⟩ ∧
    heap_create 64 4 true true (fun _ => (0 : Int)) (2 ^ 64 - 1) = some ⟨2 ^ 64 - 1, 0, []⟩ := by
  constructor <;> decide


/-! ## Comparators without transitivity -/

theorem cyclic_pairwiseConsistent : PairwiseConsistent cyclic := by
  intro a b
  unfold cyclic
  have h1 : (b - a) % 3 = 0 ∨ (b - a) % 3 = 1 ∨ (b - a) % 3 = 2 := by omega
  rcases h1 with h | h | h
  · have h2 : (a - b) % 3 = 0 := by omega
    simp [h, h2]
  · have h2 : (a - b) % 3 = 2 := by omega
    simp [h, h2]
  · have h2 : (a - b) % 3 = 1 := by omega
    simp [h, h2]

/-- Pairwise consistency without transitivity does not keep the heap ordered.  With
the pairwise consistent comparator
`cyclic`, pushing 1, 2, 0 into an empty heap of capacity 3 leaves 0 at the root above
2, although `cyclic 0 2 < 0` says that 0 is bigger than 2. -/
theorem pairwise_consistency_not_enough :
    PairwiseConsistent cyclic ∧
    heap_create 64 4 true true (fun _ => (0 : Int)) 3 = some ⟨3, 0, [0, 0, 0, 0]⟩ ∧
    Reachable cyclic (⟨3, 0, [0, 0, 0, 0]⟩ : Heap Int) ⟨3, 3, [0, 0, 2, 1]⟩ ∧
    ¬ (∀ i, 2 ≤ i → i ≤ 3 → ∀ p c, ([0, 0, 2, 1] : List Int)[i / 2]? = some p →
      ([0, 0, 2, 1] : List Int)[i]? = some c → 0 ≤ cyclic p c) := by
  refine ⟨cyclic_pairwiseConsistent, by decide, ?_, ?_⟩
  · refine Reachable.push ⟨3, 2, [0, 1, 2, 0]⟩ _ 0 ?_ (by decide) ?_
    · refine Reachable.push ⟨3, 1, [0, 1, 0, 0]⟩ _ 2 ?_ (by decide) ?_
      · refine Reachable.push ⟨3, 0, [0, 0, 0, 0]⟩ _ 1 Reachable.start (by decide) ?_
        simp [heap_push, heap_sort_up, writeAt, bind, Except.bind, pure, Except.pure]
      · simp [heap_push, heap_sort_up, heap_sort_up_loop, readAt, writeAt, cyclic, bind,
          Except.bind, pure, Except.pure]
    · simp [heap_push, heap_sort_up, heap_sort_up_loop, readAt, writeAt, cyclic, bind,
        Except.bind, pure, Except.pure]
  · intro h
    have h2 := h 2 (by decide) (by decide) 0 2 rfl rfl
    simp [cyclic] at h2

/-- Claim C11, amended.  For a comparator that is pairwise consistent and whose "not
bigger" relation is transitive, in every state reached from a successful `create` by
`push` calls made with `size < capacity` and `pop` calls made with `size > 0`, every
parent is not bigger than its children: `compare elements[i/2] elements[i] >= 0` for
every `2 <= i <= size`. -/
theorem reachable_heap_order_of_transitive {α : Type} {compare : α → α → Int}
    (hpc : PairwiseConsistent compare)
    (htrans : ∀ a b c, 0 ≤ compare a b → 0 ≤ compare b c → 0 ≤ compare a c)
    (w sizeofType : Nat) (junk : Nat → α) (capacity : Nat) (h0 h : Heap α)
    (hcreate : heap_create w sizeofType true true junk capacity = some h0)
    (hr : Reachable compare h0 h) :
    ∀ i, 2 ≤ i → i ≤ h.size → ∀ p c, h.elements[i / 2]? = some p →
      h.elements[i]? = some c → 0 ≤ compare p c :=
  Reachable.heapOrdered ⟨hpc, htrans⟩
    (heap_create_eq_some w sizeofType junk capacity h0 hcreate).1 hr

theorem reachable_heap_order_of_transitive_witness :
    PairwiseConsistent ascending ∧
    (∀ a b c, 0 ≤ ascending a b → 0 ≤ ascending b c → 0 ≤ ascending a c) ∧
    heap_create 64 4 true true (fun _ => (0 : Int)) 3 = some ⟨3, 0, [0, 0, 0, 0]⟩ ∧
    Reachable ascending (⟨3, 0, [0, 0, 0, 0]⟩ : Heap Int) ⟨3, 3, [0, 0, 2, 1]⟩ ∧
    ∀ i, 2 ≤ i → i ≤ 3 → ∀ p c, ([0, 0, 2, 1] : List Int)[i / 2]? = some p →
      ([0, 0, 2, 1] : List Int)[i]? = some c → 0 ≤ ascending p c := by
  have hcreate :
      heap_create 64 4 true true (fun _ => (0 : Int)) 3 = some ⟨3, 0, [0, 0, 0, 0]⟩ := by
    decide
  have hreach : Reachable ascending (⟨3, 0, [0, 0, 0, 0]⟩ : Heap Int) ⟨3, 3, [0, 0, 2, 1]⟩ := by
    refine Reachable.push ⟨3, 2, [0, 1, 2, 0]⟩ _ 0 ?_ (by decide) ?_
    · refine Reachable.push ⟨3, 1, [0, 1, 0, 0]⟩ _ 2 ?_ (by decide) ?_
      · refine Reachable.push ⟨3, 0, [0, 0, 0, 0]⟩ _ 1 Reachable.start (by decide) ?_
        simp [heap_push, heap_sort_up, writeAt, bind, Except.bind, pure, Except.pure]
      · simp [heap_push, heap_sort_up, heap_sort_up_loop, readAt, writeAt, ascending, bind,
          Except.bind, pure, Except.pure]
    · simp [heap_push, heap_sort_up, heap_sort_up_loop, readAt, writeAt, ascending, bind,
        Except.bind, pure, Except.pure]
  exact ⟨ascending_totalPreorder.opposite, ascending_totalPreorder.trans, hcreate, hreach,
    reachable_heap_order_of_transitive ascending_totalPreorder.opposite
      ascending_totalPreorder.trans 64 4 (fun _ => (0 : Int)) 3 _ _ hcreate hreach⟩

/-! ## Single iterations -/

/-- The loop of `heap_sort_up` is the iteration of `heap_sort_up_step`. -/
theorem heap_sort_up_loop_eq_step {α : Type} (compare : α → α → Int) (e : α) (cur : Nat)
    (a : List α) :
    heap_sort_up_loop compare e cur a =
      (heap_sort_up_step compare e cur a).bind (fun next =>
        match next with
        | none => .ok (cur, a)
        | some (cur', a') => heap_sort_up_loop compare e cur' a') := by
  rw [heap_sort_up_loop]
  unfold heap_sort_up_step
  split
  · simp only [bind, Except.bind, pure, Except.pure]
    cases readAt a (cur / 2) with
    | error f => rfl
    | ok p =>
      simp only []
      split
      · cases writeAt a cur p with
        | error f => rfl
        | ok a1 => rfl
      · rfl
  · rfl

/-- The value of one iteration of the loop of `heap_sort_down` on an array that holds
the slots `0 .. n`. -/
theorem heap_sort_down_step_eq {α : Type} (compare : α → α → Int) (n : Nat) (e : α)
    (cur : Nat) (a : List α) (hcur : cur ≤ n) (hlen : n < a.length) :
    ∃ next, heap_sort_down_step compare n e cur a = .ok next ∧
      (RightPromoted compare n e cur a →
        ∃ r, a[2 * cur + 1]? = some r ∧ next = some (2 * cur + 1, a.set cur r)) ∧
      (LeftPromoted compare n e cur a →
        ∃ l, a[2 * cur]? = some l ∧ next = some (2 * cur, a.set cur l)) ∧
      (¬ RightPromoted compare n e cur a → ¬ LeftPromoted compare n e cur a →
        next = none) := by
  unfold heap_sort_down_step
  have hw : ∀ v, writeAt a cur v = .ok (a.set cur v) := fun v => writeAt_of_lt v (by omega)
  by_cases hl : 2 * cur ≤ n
  · obtain ⟨l, hgl⟩ := exists_getElem?_of_lt (show 2 * cur < a.length by omega)
    by_cases hr : 2 * cur + 1 ≤ n
    · obtain ⟨r, hgr⟩ := exists_getElem?_of_lt (show 2 * cur + 1 < a.length by omega)
      by_cases h1 : compare e r < 0
      · by_cases h2 : compare r l > 0
        · have hR : RightPromoted compare n e cur a := ⟨hr, r, l, hgr, hgl, h1, h2⟩
          refine ⟨some (2 * cur + 1, a.set cur r), ?_, fun _ => ⟨r, hgr, rfl⟩,
            fun hL => absurd hR hL.1, fun hnR => absurd hR hnR⟩
          simp [hl, hr, h1, h2, readAt_of_getElem? hgr, readAt_of_getElem? hgl, hw, bind,
            Except.bind, pure, Except.pure]
        · have hnR : ¬ RightPromoted compare n e cur a := by
            rintro ⟨_, r', l', hr', hl', _, h⟩
            rw [hgr] at hr'; rw [hgl] at hl'
            cases hr'; cases hl'
            exact h2 h
          by_cases h3 : compare e l < 0
          · have hL : LeftPromoted compare n e cur a := ⟨hnR, hl, l, hgl, h3⟩
            refine ⟨some (2 * cur, a.set cur l), ?_, fun hR => absurd hR hnR,
              fun _ => ⟨l, hgl, rfl⟩, fun _ hnL => absurd hL hnL⟩
            simp [hl, hr, h1, h2, h3, readAt_of_getElem? hgr, readAt_of_getElem? hgl, hw,
              bind, Except.bind, pure, Except.pure]
          · have hnL : ¬ LeftPromoted compare n e cur a := by
              rintro ⟨_, _, l', hl', h⟩
              rw [hgl] at hl'
              cases hl'
              exact h3 h
            refine ⟨none, ?_, fun hR => absurd hR hnR, fun hL => absurd hL hnL,
              fun _ _ => rfl⟩
            simp [hl, hr, h1, h2, h3, readAt_of_getElem? hgr, readAt_of_getElem? hgl, bind,
              Except.bind, pure, Except.pure]
      · have hnR : ¬ RightPromoted compare n e cur a := by
          rintro ⟨_, r', l', hr', hl', h, _⟩
          rw [hgr] at hr'
          cases hr'
          exact h1 h
        by_cases h3 : compare e l < 0
        · have hL : LeftPromoted compare n e cur a := ⟨hnR, hl, l, hgl, h3⟩
          refine ⟨some (2 * cur, a.set cur l), ?_, fun hR => absurd hR hnR,
            fun _ => ⟨l, hgl, rfl⟩, fun _ hnL => absurd hL hnL⟩
          simp [hl, hr, h1, h3, readAt_of_getElem? hgr, readAt_of_getElem? hgl, hw, bind,
            Except.bind, pure, Except.pure]
        · have hnL : ¬ LeftPromoted compare n e cur a := by
            rintro ⟨_, _, l', hl', h⟩
            rw [hgl] at hl'
            cases hl'
            exact h3 h
          refine ⟨none, ?_, fun hR => absurd hR hnR, fun hL => absurd hL hnL,
            fun _ _ => rfl⟩
          simp [hl, hr, h1, h3, readAt_of_getElem? hgr, readAt_of_getElem? hgl, bind,
            Except.bind, pure, Except.pure]
    · have hnR : ¬ RightPromoted compare n e cur a := fun h => hr h.1
      by_cases h3 : compare e l < 0
      · have hL : LeftPromoted compare n e cur a := ⟨hnR, hl, l, hgl, h3⟩
        refine ⟨some (2 * cur, a.set cur l), ?_, fun hR => absurd hR hnR,
          fun _ => ⟨l, hgl, rfl⟩, fun _ hnL => absurd hL hnL⟩
        simp [hl, hr, h3, readAt_of_getElem? hgl, hw, bind, Except.bind, pure, Except.pure]
      · have hnL : ¬ LeftPromoted compare n e cur a := by
          rintro ⟨_, _, l', hl', h⟩
          rw [hgl] at hl'
          cases hl'
          exact h3 h
        refine ⟨none, ?_, fun hR => absurd hR hnR, fun hL => absurd hL hnL, fun _ _ => rfl⟩
        simp [hl, hr, h3, readAt_of_getElem? hgl, bind, Except.bind, pure, Except.pure]
  · have hnR : ¬ RightPromoted compare n e cur a := fun h => hl (by have := h.1; omega)
    have hnL : ¬ LeftPromoted compare n e cur a := fun h => hl h.2.1
    refine ⟨none, ?_, fun hR => absurd hR hnR, fun hL => absurd hL hnL, fun _ _ => rfl⟩
    simp [hl, pure, Except.pure]

/-- The loop of `heap_sort_down` is the iteration of `heap_sort_down_step`: it stops
with the current index and array when the step breaks, continues from the state the
step returns otherwise, and fails when the step fails. -/
theorem heap_sort_down_loop_eq_step {α : Type} (compare : α → α → Int) (n : Nat) (e : α)
    (cur : Nat) (hpos : 0 < cur) (a : List α) :
    (heap_sort_down_step compare n e cur a = .ok none →
      heap_sort_down_loop compare n e cur hpos a = .ok (cur, a)) ∧
    (∀ c a' (hc : 0 < c), heap_sort_down_step compare n e cur a = .ok (some (c, a')) →
      heap_sort_down_loop compare n e cur hpos a =
        heap_sort_down_loop compare n e c hc a') ∧
    (∀ f, heap_sort_down_step compare n e cur a = .error f →
      heap_sort_down_loop compare n e cur hpos a = .error f) := by
  rw [heap_sort_down_loop]
  unfold heap_sort_down_step
  simp only []
  by_cases hl : 2 * cur ≤ n
  · by_cases hr : 2 * cur + 1 ≤ n
    · cases hgr : readAt a (2 * cur + 1) with
      | error f => simp [hl, hr, hgr, bind, Except.bind, pure, Except.pure]
      | ok r =>
        by_cases h1 : compare e r < 0
        · cases hgl : readAt a (2 * cur) with
          | error f => simp [hl, hr, hgr, hgl, h1, bind, Except.bind, pure, Except.pure]
          | ok l =>
            by_cases h2 : compare r l > 0
            · cases hw : writeAt a cur r with
              | error f =>
                simp [hl, hr, hgr, hgl, hw, h1, h2, bind, Except.bind, pure, Except.pure]
              | ok a1 =>
                simp only [hl, hr, hgr, hgl, hw, h1, h2, bind, Except.bind, pure, Except.pure,
                  dite_true, if_true, decide_True]
                refine ⟨by simp, ?_, by simp⟩
                intro c a' hc h
                simp only [Except.ok.injEq, Option.some.injEq, Prod.mk.injEq] at h
                obtain ⟨rfl, rfl⟩ := h
                rfl
            · by_cases h3 : compare e l < 0
              · cases hw : writeAt a cur l with
                | error f =>
                  simp [hl, hr, hgr, hgl, hw, h1, h2, h3, bind, Except.bind, pure,
                    Except.pure]
                | ok a1 =>
                  simp only [hl, hr, hgr, hgl, hw, h1, h2, h3, bind, Except.bind, pure,
                    Except.pure, dite_true, if_true, decide_False, Bool.false_eq_true,
                    if_false]
                  refine ⟨by simp, ?_, by simp⟩
                  intro c a' hc h
                  simp only [Except.ok.injEq, Option.some.injEq, Prod.mk.injEq] at h
                  obtain ⟨rfl, rfl⟩ := h
                  rfl
              · simp [hl, hr, hgr, hgl, h1, h2, h3, bind, Except.bind, pure, Except.pure]
        · cases hgl : readAt a (2 * cur) with
          | error f => simp [hl, hr, hgr, hgl, h1, bind, Except.bind, pure, Except.pure]
          | ok l =>
            by_cases h3 : compare e l < 0
            · cases hw : writeAt a cur l with
              | error f =>
                simp [hl, hr, hgr, hgl, hw, h1, h3, bind, Except.bind, pure, Except.pure]
              | ok a1 =>
                simp only [hl, hr, hgr, hgl, hw, h1, h3, bind, Except.bind, pure,
                  Except.pure, dite_true, if_true, Bool.false_eq_true, if_false]
                refine ⟨by simp, ?_, by simp⟩
                intro c a' hc h
                simp only [Except.ok.injEq, Option.some.injEq, Prod.mk.injEq] at h
                obtain ⟨rfl, rfl⟩ := h
                rfl
            · simp [hl, hr, hgr, hgl, h1, h3, bind, Except.bind, pure, Except.pure]
    · cases hgl : readAt a (2 * cur) with
      | error f => simp [hl, hr, hgl, bind, Except.bind, pure, Except.pure]
      | ok l =>
        by_cases h3 : compare e l < 0
        · cases hw : writeAt a cur l with
          | error f => simp [hl, hr, hgl, hw, h3, bind, Except.bind, pure, Except.pure]
          | ok a1 =>
            simp only [hl, hr, hgl, hw, h3, bind, Except.bind, pure, Except.pure, dite_true,
              if_true, Bool.false_eq_true, if_false]
            refine ⟨by simp, ?_, by simp⟩
            intro c a' hc h
            simp only [Except.ok.injEq, Option.some.injEq, Prod.mk.injEq] at h
            obtain ⟨rfl, rfl⟩ := h
            rfl
        · simp [hl, hr, hgl, h3, bind, Except.bind, pure, Except.pure]
  · simp [hl, pure, Except.pure]

/-! ## Claims C12 to C20 -/

/-- Claim C12.  Sift-down step rule and tie-break.  At a step of `heap_sort_down` at
index `i` with the element `c` being placed, on an array holding the slots
`0 .. size`: the right child `2i+1` is promoted (slot `i` receives it and the loop
continues from `2i+1`) if and only if it exists, `compare c right < 0` and
`compare right left > 0`; otherwise the left child `2i` is promoted if and only if it
exists and `compare c left < 0`; otherwise the loop stops, and `heap_sort_down`
writes `c` at the index where the loop stopped.  When left and right compare equal
and both are smaller than `c`, the left child is promoted. -/
theorem sort_down_step_rule {α : Type} (compare : α → α → Int) (size : Nat) (c : α)
    (i : Nat) (a : List α) (hpos : 0 < i) (hi : i ≤ size) (hlen : size < a.length) :
    ∃ next, heap_sort_down_step compare size c i a = .ok next ∧
      ((∃ a', next = some (2 * i + 1, a')) ↔ RightPromoted compare size c i a) ∧
      (RightPromoted compare size c i a →
        ∃ r, a[2 * i + 1]? = some r ∧ next = some (2 * i + 1, a.set i r)) ∧
      ((∃ a', next = some (2 * i, a')) ↔ LeftPromoted compare size c i a) ∧
      (LeftPromoted compare size c i a →
        ∃ l, a[2 * i]? = some l ∧ next = some (2 * i, a.set i l)) ∧
      (next = none ↔ ¬ RightPromoted compare size c i a ∧ ¬ LeftPromoted compare size c i a) ∧
      (∀ r l, 2 * i + 1 ≤ size → a[2 * i + 1]? = some r → a[2 * i]? = some l →
        compare r l = 0 → compare c r < 0 → compare c l < 0 →
        next = some (2 * i, a.set i l)) ∧
      (next = none → heap_sort_down_loop compare size c i hpos a = .ok (i, a)) ∧
      (∀ i' a' (hpos' : 0 < i'), next = some (i', a') →
        heap_sort_down_loop compare size c i hpos a =
          heap_sort_down_loop compare size c i' hpos' a') ∧
      (∀ h : Heap α, 1 < h.size → h.size < h.elements.length →
        ∃ top j a', h.elements[1]? = some top ∧
          heap_sort_down_loop compare h.size top 1 Nat.one_pos h.elements = .ok (j, a') ∧
          heap_sort_down compare h = .ok { h with elements := a'.set j top }) := by
  obtain ⟨next, hstep, hR, hL, hN⟩ := heap_sort_down_step_eq compare size c i a hi hlen
  obtain ⟨lnone, lsome, _⟩ := heap_sort_down_loop_eq_step compare size c i hpos a
  rw [hstep] at lnone lsome
  have hexcl : ∀ a', next = some (2 * i + 1, a') → RightPromoted compare size c i a := by
    intro a' hn
    by_contra hnR
    by_cases hLp : LeftPromoted compare size c i a
    · obtain ⟨l, _, hl⟩ := hL hLp
      rw [hn] at hl
      simp only [Option.some.injEq, Prod.mk.injEq] at hl
      omega
    · rw [hN hnR hLp] at hn
      cases hn
  have hexclL : ∀ a', next = some (2 * i, a') → LeftPromoted compare size c i a := by
    intro a' hn
    by_contra hnL
    by_cases hRp : RightPromoted compare size c i a
    · obtain ⟨r, _, hr⟩ := hR hRp
      rw [hn] at hr
      simp only [Option.some.injEq, Prod.mk.injEq] at hr
      omega
    · rw [hN hRp hnL] at hn
      cases hn
  refine ⟨next, hstep, ⟨fun ⟨a', ha'⟩ => hexcl a' ha', fun h => ?_⟩, hR,
    ⟨fun ⟨a', ha'⟩ => hexclL a' ha', fun h => ?_⟩, hL, ⟨fun hn => ⟨?_, ?_⟩, fun h => hN h.1 h.2⟩,
    ?_, fun hn => lnone (by rw [hn]), fun i' a' hpos' hn => lsome i' a' hpos' (by rw [hn]), ?_⟩
  · obtain ⟨r, _, hr⟩ := hR h
    exact ⟨_, hr⟩
  · obtain ⟨l, _, hl⟩ := hL h
    exact ⟨_, hl⟩
  · intro hRp
    obtain ⟨r, _, hr⟩ := hR hRp
    rw [hn] at hr
    cases hr
  · intro hLp
    obtain ⟨l, _, hl⟩ := hL hLp
    rw [hn] at hl
    cases hl
  · intro r l hr hgr hgl heq hcr hcl
    have hnR : ¬ RightPromoted compare size c i a := by
      rintro ⟨_, r', l', hr', hl', _, h⟩
      rw [hgr] at hr'; rw [hgl] at hl'
      cases hr'; cases hl'
      omega
    obtain ⟨l', hl', hn⟩ := hL ⟨hnR, by omega, l, hgl, hcl⟩
    rw [hgl] at hl'
    cases hl'
    exact hn
  · intro h h1 hlen'
    obtain ⟨top, htop⟩ := exists_getElem?_of_lt (show 1 < h.elements.length by omega)
    obtain ⟨j, a', hrun, hl', _, hj, _⟩ :=
      heap_sort_down_loop_ok compare h.size top (h.size - 1) 1 Nat.one_pos h.elements rfl
        (by omega) hlen'
    have hw := writeAt_of_lt top (show j < a'.length by omega)
    refine ⟨top, j, a', htop, hrun, ?_⟩
    unfold heap_sort_down
    simp only [h1, if_true, readAt_of_getElem? htop, hrun, hw, bind, Except.bind, pure,
      Except.pure]

/-- At index 1 of the array `[_, 9, 4, 4]` of size 3 the two children compare equal
and are both smaller than 9: the left child is promoted. -/
theorem sort_down_step_rule_witness :
    0 < 1 ∧ 1 ≤ 3 ∧ 3 < ([0, 9, 4, 4] : List Int).length ∧
    heap_sort_down_step ascending 3 9 1 [0, 9, 4, 4] = .ok (some (2, [0, 4, 4, 4])) := by
  obtain ⟨next, hstep, _, _, _, _, _, htie, _⟩ :=
    sort_down_step_rule ascending 3 9 1 [0, 9, 4, 4] (by decide) (by decide) (by decide)
  have hn := htie 4 4 (by decide) rfl rfl (by decide) (by decide) (by decide)
  rw [hn] at hstep
  exact ⟨by decide, by decide, by decide, hstep⟩

/-- The loop of `heap_sort_up` started at `cur` stops at `cur / 2 ^ k`, the first
index of the path `cur, cur / 2, cur / 4, ...` that is 1 or whose parent is not
bigger than `sortElement`; the elements of the path below that index have moved
down one level and every other slot is unchanged. -/
theorem heap_sort_up_loop_path {α : Type} (compare : α → α → Int) (e : α) :
    ∀ (cur : Nat) (a : List α), 1 ≤ cur → cur < a.length →
      ∃ k a', heap_sort_up_loop compare e cur a = .ok (cur / 2 ^ k, a') ∧
        a'.length = a.length ∧ 1 ≤ cur / 2 ^ k ∧
        (cur / 2 ^ k = 1 ∨ ∃ p, a[cur / 2 ^ k / 2]? = some p ∧ 0 ≤ compare p e) ∧
        (∀ t, t < k → 1 < cur / 2 ^ t ∧
          ∃ p, a[cur / 2 ^ (t + 1)]? = some p ∧ compare p e < 0) ∧
        (∀ t, t < k → a'[cur / 2 ^ t]? = a[cur / 2 ^ (t + 1)]?) ∧
        (∀ i, (∀ t, t < k → i ≠ cur / 2 ^ t) → a'[i]? = a[i]?) := by
  intro cur
  induction cur using Nat.strong_induction_on with
  | _ cur ih =>
    intro a h1 hlen
    have hdiv : ∀ t, cur / 2 ^ (t + 1) = cur / 2 / 2 ^ t := by
      intro t
      rw [Nat.div_div_eq_div_mul, pow_succ']
    have hle : ∀ t, cur / 2 / 2 ^ t ≤ cur / 2 := fun t => Nat.div_le_self _ _
    rw [heap_sort_up_loop]
    split
    · rename_i hgt
      obtain ⟨p, hp⟩ := exists_getElem?_of_lt (show cur / 2 < a.length by omega)
      simp only [readAt_of_getElem? hp, bind, Except.bind]
      split
      · rename_i hlt
        rw [writeAt_of_lt p hlen]
        simp only []
        obtain ⟨k, a', hrun, hl, hj1, hstop, hcont, hmove, hframe⟩ :=
          ih (cur / 2) (by omega) (a.set cur p) (by omega) (by simp; omega)
        have hset : ∀ i, i ≠ cur → (a.set cur p)[i]? = a[i]? := by
          intro i hi
          rw [getElem?_set_of_lt i p hlen, if_neg (by omega)]
        refine ⟨k + 1, a', ?_, by simpa using hl, ?_, ?_, ?_, ?_, ?_⟩
        · rw [hdiv k]; exact hrun
        · rw [hdiv k]; exact hj1
        · rw [hdiv k]
          rcases hstop with h | ⟨q, hq, hqe⟩
          · exact Or.inl h
          · refine Or.inr ⟨q, ?_, hqe⟩
            rw [← hset _ (by have := hle k; omega)]
            exact hq
        · intro t ht
          cases t with
          | zero =>
            refine ⟨by simpa using hgt, p, by simpa using hp, hlt⟩
          | succ s =>
            obtain ⟨hs1, q, hq, hqe⟩ := hcont s (by omega)
            rw [hdiv s, hdiv (s + 1)]
            refine ⟨hs1, q, ?_, hqe⟩
            rw [← hset _ (by have := hle (s + 1); omega)]
            exact hq
        · intro t ht
          cases t with
          | zero =>
            have hc : a'[cur]? = (a.set cur p)[cur]? := by
              refine hframe cur ?_
              intro t _
              have := hle t
              omega
            simp only [pow_zero, Nat.div_one, zero_add, pow_one]
            rw [hc, getElem?_set_of_lt cur p hlen, if_pos rfl, hp]
          | succ s =>
            rw [hdiv s, hdiv (s + 1), hmove s (by omega)]
            exact hset _ (by have := hle (s + 1); omega)
        · intro i hi
          have hic : i ≠ cur := by simpa using hi 0 (by omega)
          rw [hframe i ?_, hset i hic]
          intro t ht
          have := hi (t + 1) (by omega)
          rw [hdiv t] at this
          exact this
      · rename_i hge
        refine ⟨0, a, by simp [pure, Except.pure], rfl, by simpa using h1, ?_, ?_, ?_, ?_⟩
        · refine Or.inr ⟨p, by simpa using hp, by omega⟩
        · intro t ht; omega
        · intro t ht; omega
        · intro i _; rfl
    · rename_i hle1
      refine ⟨0, a, by simp [pure, Except.pure], rfl, by simpa using h1, ?_, ?_, ?_, ?_⟩
      · refine Or.inl ?_
        simp only [pow_zero, Nat.div_one]
        omega
      · intro t ht; omega
      · intro t ht; omega
      · intro i _; rfl

theorem path_index_lt {n k : Nat} (hcont : ∀ t, t < k → 1 < n / 2 ^ t) :
    ∀ t, t < k → n / 2 ^ k < n / 2 ^ t := by
  intro t ht
  have h1 : n / 2 ^ k ≤ n / 2 ^ (t + 1) :=
    Nat.div_le_div_left (Nat.pow_le_pow_right (by decide) (by omega)) (by positivity)
  have h2 : n / 2 ^ (t + 1) = n / 2 ^ t / 2 := by
    rw [Nat.div_div_eq_div_mul, pow_succ]
  have h3 := hcont t ht
  omega

/-- Claim C13.  Sift-up placement.  On a heap with `size >= 2` whose slot `size` is
inside the array, `heap_sort_up` takes the element `e` at index `size` and writes it
at `j = size / 2 ^ k`, the first index on the path `size, size/2, size/4, ..., 1` such
that `j == 1` or the original `elements[j/2]` is not bigger than `e`
(`compare elements[j/2] e >= 0`); at every earlier index of the path the parent is
bigger than `e`, and that parent is moved down one level along the path; every slot
not on the path between `size` and `j` is unchanged.  An element whose parent is not
bigger (in particular one that compares equal to its parent) does not move. -/
theorem sort_up_placement {α : Type} (compare : α → α → Int) (h : Heap α)
    (h2 : 2 ≤ h.size) (hlen : h.size < h.elements.length) :
    ∃ e k h', h.elements[h.size]? = some e ∧ heap_sort_up compare h = .ok h' ∧
      h'.size = h.size ∧ h'.capacity = h.capacity ∧ 1 ≤ h.size / 2 ^ k ∧
      (h.size / 2 ^ k = 1 ∨
        ∃ p, h.elements[h.size / 2 ^ k / 2]? = some p ∧ 0 ≤ compare p e) ∧
      (∀ t, t < k → 1 < h.size / 2 ^ t ∧
        ∃ p, h.elements[h.size / 2 ^ (t + 1)]? = some p ∧ compare p e < 0) ∧
      h'.elements[h.size / 2 ^ k]? = some e ∧
      (∀ t, t < k → h'.elements[h.size / 2 ^ t]? = h.elements[h.size / 2 ^ (t + 1)]?) ∧
      (∀ i, (∀ t, t ≤ k → i ≠ h.size / 2 ^ t) → h'.elements[i]? = h.elements[i]?) ∧
      (∀ p, h.elements[h.size / 2]? = some p → 0 ≤ compare p e →
        h'.elements = h.elements) := by
  obtain ⟨e, he⟩ := exists_getElem?_of_lt hlen
  obtain ⟨k, a', hrun, hl, hj1, hstop, hcont, hmove, hframe⟩ :=
    heap_sort_up_loop_path compare e h.size h.elements (by omega) hlen
  have hjle : h.size / 2 ^ k ≤ h.size := Nat.div_le_self _ _
  have hjlen : h.size / 2 ^ k < a'.length := by omega
  have hget : ∀ i, (a'.set (h.size / 2 ^ k) e)[i]? =
      if h.size / 2 ^ k = i then some e else a'[i]? :=
    fun i => getElem?_set_of_lt i e hjlen
  have hstrict := path_index_lt (fun t ht => (hcont t ht).1)
  refine ⟨e, k, { h with elements := a'.set (h.size / 2 ^ k) e }, he, ?_, rfl, rfl, hj1,
    hstop, hcont, ?_, ?_, ?_, ?_⟩
  · unfold heap_sort_up
    simp only [show h.size > 1 by omega, if_true, readAt_of_getElem? he, hrun,
      writeAt_of_lt e hjlen, bind, Except.bind, pure, Except.pure]
  · show (a'.set (h.size / 2 ^ k) e)[h.size / 2 ^ k]? = some e
    rw [hget, if_pos rfl]
  · intro t ht
    show (a'.set (h.size / 2 ^ k) e)[h.size / 2 ^ t]? = _
    have := hstrict t ht
    rw [hget, if_neg (by omega)]
    exact hmove t ht
  · intro i hi
    show (a'.set (h.size / 2 ^ k) e)[i]? = _
    rw [hget, if_neg (fun heq => hi k (le_refl k) heq.symm)]
    exact hframe i (fun t ht => hi t (by omega))
  · intro p hp hpe
    show a'.set (h.size / 2 ^ k) e = h.elements
    have hk : k = 0 := by
      by_contra hk
      obtain ⟨_, q, hq, hqe⟩ := hcont 0 (by omega)
      simp only [zero_add, pow_one] at hq
      rw [hp] at hq
      cases hq
      omega
    subst hk
    have ha : a' = h.elements := by
      apply List.ext_getElem?
      intro i
      exact hframe i (fun t ht => absurd ht (by omega))
    rw [ha]
    simp only [pow_zero, Nat.div_one]
    exact set_eq_self_of_getElem? _ _ _ he

/-- Sorting up `2` from slot 4 of `[_, 1, 3, 8, 2]`: the parent 3 moves down and 2
stops at index 2 below the root 1. -/
theorem sort_up_placement_witness :
    2 ≤ 4 ∧ 4 < ([0, 1, 3, 8, 2] : List Int).length ∧
    heap_sort_up ascending ⟨4, 4, [0, 1, 3, 8, 2]⟩ = .ok ⟨4, 4, [0, 1, 2, 8, 3]⟩ ∧
    ∃ h', heap_sort_up ascending ⟨4, 4, [0, 1, 3, 8, 2]⟩ = .ok h' ∧ h'.size = 4 ∧
      h'.elements[3]? = some 8 := by
  obtain ⟨e, k, h', he, hrun, hsz, _, _, _, hcont, _, _, hframe, _⟩ :=
    sort_up_placement ascending ⟨4, 4, [0, 1, 3, 8, 2]⟩ (by decide) (by decide)
  have hval : heap_sort_up ascending ⟨4, 4, [0, 1, 3, 8, 2]⟩ = .ok ⟨4, 4, [0, 1, 2, 8, 3]⟩ := by
    simp [heap_sort_up, heap_sort_up_loop, readAt, writeAt, ascending, bind, Except.bind,
      pure, Except.pure]
  refine ⟨by decide, by decide, hval, h', hrun, hsz, ?_⟩
  rw [hval] at hrun
  cases hrun
  rfl

/-- Claim C14.  Concrete tie scenario.  On an empty heap of capacity at least 3,
pushing 4, 4, 2 under the ascending-integer comparator and popping three times
returns 2, 4, 4.  With the two 4s tagged 1 and 2 (and 2 tagged 3) under a comparator
that ignores the tag: after the pushes the first 4 sits in the last slot; the first
pop returns 2 and moves that 4 to the root, where its equal left child does not
displace it; so the pops return 2, then the 4 tagged 1, then the 4 tagged 2. -/
theorem tie_scenario_four_four_two (h0 : Heap Int) (t0 : Heap (Int × Nat))
    (hsize : h0.size = 0) (hslots : h0.elements.length = h0.capacity + 1)
    (hcap : 3 ≤ h0.capacity) (tsize : t0.size = 0)
    (tslots : t0.elements.length = t0.capacity + 1) (tcap : 3 ≤ t0.capacity) :
    (∃ h1 h2, pushAll ascending h0 [4, 4, 2] = .ok h1 ∧
      popN ascending 3 h1 = .ok ([2, 4, 4], h2)) ∧
    (∃ t1 t2 t3, pushAll byKey t0 [(4, 1), (4, 2), (2, 3)] = .ok t1 ∧
      t1.elements[3]? = some (4, 1) ∧
      heap_pop byKey t1 = .ok ((2, 3), t2) ∧
      t2.elements[1]? = some (4, 1) ∧ t2.elements[2]? = some (4, 2) ∧
      popN byKey 3 t1 = .ok ([(2, 3), (4, 1), (4, 2)], t3)) := by
  constructor
  · obtain ⟨cap, sz, els⟩ := h0
    simp only at hsize hslots hcap
    subst hsize
    rcases els with _ | ⟨x0, _ | ⟨x1, _ | ⟨x2, _ | ⟨x3, rest⟩⟩⟩⟩
    · simp at hslots
    · simp at hslots; omega
    · simp at hslots; omega
    · simp at hslots; omega
    · refine ⟨⟨cap, 3, x0 :: 2 :: 4 :: 4 :: rest⟩, ⟨cap, 0, x0 :: 4 :: 4 :: 4 :: rest⟩, ?_, ?_⟩
      · simp [pushAll, heap_push, heap_sort_up, heap_sort_up_loop, readAt, writeAt,
          ascending, bind, Except.bind, pure, Except.pure]
      · simp [popN, heap_pop, heap_sort_down, heap_sort_down_loop, readAt, writeAt,
          ascending, bind, Except.bind, pure, Except.pure]
  · obtain ⟨cap, sz, els⟩ := t0
    simp only at tsize tslots tcap
    subst tsize
    rcases els with _ | ⟨x0, _ | ⟨x1, _ | ⟨x2, _ | ⟨x3, rest⟩⟩⟩⟩
    · simp at tslots
    · simp at tslots; omega
    · simp at tslots; omega
    · simp at tslots; omega
    · refine ⟨⟨cap, 3, x0 :: (2, 3) :: (4, 2) :: (4, 1) :: rest⟩,
        ⟨cap, 2, x0 :: (4, 1) :: (4, 2) :: (4, 1) :: rest⟩,
        ⟨cap, 0, x0 :: (4, 2) :: (4, 2) :: (4, 1) :: rest⟩, ?_, by simp, ?_, by simp, by simp, ?_⟩
      · simp [pushAll, heap_push, heap_sort_up, heap_sort_up_loop, readAt, writeAt, byKey,
          bind, Except.bind, pure, Except.pure]
      · simp [heap_pop, heap_sort_down, heap_sort_down_loop, readAt, writeAt, byKey, bind,
          Except.bind, pure, Except.pure]
      · simp [popN, heap_pop, heap_sort_down, heap_sort_down_loop, readAt, writeAt, byKey,
          bind, Except.bind, pure, Except.pure]

theorem tie_scenario_four_four_two_witness :
    heap_create 64 4 true true (fun _ => (0 : Int)) 3 = some ⟨3, 0, [0, 0, 0, 0]⟩ ∧
    heap_create 64 16 true true (fun _ => ((0, 0) : Int × Nat)) 3 =
      some ⟨3, 0, [(0, 0), (0, 0), (0, 0), (0, 0)]⟩ ∧
    popN byKey 3 ⟨3, 3, [(0, 0), (2, 3), (4, 2), (4, 1)]⟩ =
      .ok ([(2, 3), (4, 1), (4, 2)], ⟨3, 0, [(0, 0), (4, 2), (4, 2), (4, 1)]⟩) ∧
    ((∃ h1 h2, pushAll ascending ⟨3, 0, [0, 0, 0, 0]⟩ [4, 4, 2] = .ok h1 ∧
      popN ascending 3 h1 = .ok ([2, 4, 4], h2)) ∧
    (∃ t1 t2 t3,
      pushAll byKey ⟨3, 0, [(0, 0), (0, 0), (0, 0), (0, 0)]⟩ [(4, 1), (4, 2), (2, 3)] =
        .ok t1 ∧
      t1.elements[3]? = some (4, 1) ∧
      heap_pop byKey t1 = .ok ((2, 3), t2) ∧
      t2.elements[1]? = some (4, 1) ∧ t2.elements[2]? = some (4, 2) ∧
      popN byKey 3 t1 = .ok ([(2, 3), (4, 1), (4, 2)], t3))) := by
  refine ⟨by decide, by decide, ?_,
    tie_scenario_four_four_two ⟨3, 0, [0, 0, 0, 0]⟩ ⟨3, 0, [(0, 0), (0, 0), (0, 0), (0, 0)]⟩
      rfl rfl (by decide) rfl rfl (by decide)⟩
  simp [popN, heap_pop, heap_sort_down, heap_sort_down_loop, readAt, writeAt, byKey, bind,
    Except.bind, pure, Except.pure]

/-- Claim C15.  The order among equal-priority elements is not stability-preserving:
three elements that all compare equal (they differ only in the tag the comparator
ignores), pushed into an empty heap of capacity 3 and then all popped, come out in an
order different from their insertion order. -/
theorem equal_elements_not_stable :
    ∃ xs : List (Int × Nat), (∀ x ∈ xs, ∀ y ∈ xs, byKey x y = 0) ∧
      ∃ h0 h1 ys h2,
        heap_create 64 16 true true (fun _ => ((0, 0) : Int × Nat)) 3 = some h0 ∧
        pushAll byKey h0 xs = .ok h1 ∧ popN byKey xs.length h1 = .ok (ys, h2) ∧
        ys.Perm xs ∧ ys ≠ xs := by
  refine ⟨[(4, 1), (4, 2), (4, 3)], ?_, ⟨3, 0, [(0, 0), (0, 0), (0, 0), (0, 0)]⟩,
    ⟨3, 3, [(0, 0), (4, 1), (4, 2), (4, 3)]⟩, [(4, 1), (4, 3), (4, 2)],
    ⟨3, 0, [(0, 0), (4, 2), (4, 2), (4, 3)]⟩, by decide, ?_, ?_, ?_, by decide⟩
  · intro x hx y hy
    simp only [List.mem_cons, List.mem_singleton, List.not_mem_nil, or_false] at hx hy
    rcases hx with rfl | rfl | rfl <;> rcases hy with rfl | rfl | rfl <;> rfl
  · simp [pushAll, heap_push, heap_sort_up, heap_sort_up_loop, readAt, writeAt, byKey, bind,
      Except.bind, pure, Except.pure]
  · simp [popN, heap_pop, heap_sort_down, heap_sort_down_loop, readAt, writeAt, byKey, bind,
      Except.bind, pure, Except.pure]
  · exact (List.Perm.swap _ _ _).cons _

/-! ## The textbook sift-down -/

theorem heap_sort_down_loop_eq_textbook {α : Type} {compare : α → α → Int}
    (hc : TotalPreorder compare) (n : Nat) (e : α) :
    ∀ (m cur : Nat) (hpos : 0 < cur) (a : List α), n - cur = m → cur ≤ n → n < a.length →
      heap_sort_down_loop compare n e cur hpos a =
        textbook_sift_down_loop compare n e cur hpos a := by
  intro m
  induction m using Nat.strong_induction_on with
  | _ m ih =>
    intro cur hpos a hm hcur hlen
    have hw : ∀ v, writeAt a cur v = .ok (a.set cur v) := fun v => writeAt_of_lt v (by omega)
    have ihr : ∀ v hp, 2 * cur + 1 ≤ n →
        heap_sort_down_loop compare n e (2 * cur + 1) hp (a.set cur v) =
          textbook_sift_down_loop compare n e (2 * cur + 1) hp (a.set cur v) :=
      fun v hp h => ih (n - (2 * cur + 1)) (by omega) _ hp _ rfl h (by simp; omega)
    have ihl : ∀ v hp, 2 * cur ≤ n →
        heap_sort_down_loop compare n e (2 * cur) hp (a.set cur v) =
          textbook_sift_down_loop compare n e (2 * cur) hp (a.set cur v) :=
      fun v hp h => ih (n - 2 * cur) (by omega) _ hp _ rfl h (by simp; omega)
    rw [heap_sort_down_loop, textbook_sift_down_loop]
    by_cases hl : 2 * cur ≤ n
    · obtain ⟨l, hgl⟩ := exists_getElem?_of_lt (show 2 * cur < a.length by omega)
      by_cases hr : 2 * cur + 1 ≤ n
      · obtain ⟨r, hgr⟩ := exists_getElem?_of_lt (show 2 * cur + 1 < a.length by omega)
        by_cases h2 : compare r l > 0
        · by_cases h1 : compare e r < 0
          · simp only [hl, hr, h1, h2, readAt_of_getElem? hgr, readAt_of_getElem? hgl, hw,
              bind, Except.bind, pure, Except.pure, dite_true, if_true, decide_True]
            exact ihr r _ hr
          · have h3 : ¬ compare e l < 0 := by
              intro h3
              have h4 := hc.trans l e r (le_of_lt (hc.pos_of_neg h3)) (by omega)
              have h5 := hc.neg_of_pos h2
              omega
            simp [hl, hr, h1, h2, h3, readAt_of_getElem? hgr, readAt_of_getElem? hgl, bind,
              Except.bind, pure, Except.pure]
        · by_cases h3 : compare e l < 0
          · by_cases h1 : compare e r < 0
            · simp only [hl, hr, h1, h2, h3, readAt_of_getElem? hgr, readAt_of_getElem? hgl,
                hw, bind, Except.bind, pure, Except.pure, dite_true, if_true, decide_False,
                Bool.false_eq_true, if_false]
              exact ihl l _ hl
            · simp only [hl, hr, h1, h2, h3, readAt_of_getElem? hgr, readAt_of_getElem? hgl,
                hw, bind, Except.bind, pure, Except.pure, dite_true, if_true, decide_False,
                Bool.false_eq_true, if_false]
              exact ihl l _ hl
          · by_cases h1 : compare e r < 0
            · simp [hl, hr, h1, h2, h3, readAt_of_getElem? hgr, readAt_of_getElem? hgl, bind,
                Except.bind, pure, Except.pure]
            · simp [hl, hr, h1, h2, h3, readAt_of_getElem? hgr, readAt_of_getElem? hgl, bind,
                Except.bind, pure, Except.pure]
      · by_cases h3 : compare e l < 0
        · simp only [hl, hr, h3, readAt_of_getElem? hgl, hw, bind, Except.bind, pure,
            Except.pure, dite_true, if_true, Bool.false_eq_true, if_false]
          exact ihl l _ hl
        · simp [hl, hr, h3, readAt_of_getElem? hgl, bind, Except.bind, pure, Except.pure]
    · simp [hl]

/-- Claim C16.  For a total-preorder comparator and every heap whose slots
`0 .. size` are inside the array (any contents), `heap_sort_down` returns exactly what
the textbook sift-down returns: the same heap, hence the same array. -/
theorem sort_down_eq_textbook {α : Type} {compare : α → α → Int}
    (hc : TotalPreorder compare) (h : Heap α) (hwf : WellFormed h) :
    heap_sort_down compare h = textbook_sift_down compare h ∧
    ∃ h', heap_sort_down compare h = .ok h' := by
  obtain ⟨hl, hle⟩ := hwf
  have hlen : h.size < h.elements.length := by omega
  refine ⟨?_, ?_⟩
  · unfold heap_sort_down textbook_sift_down
    split
    · obtain ⟨e, he⟩ := exists_getElem?_of_lt (show 1 < h.elements.length by omega)
      simp only [readAt_of_getElem? he, bind, Except.bind]
      rw [heap_sort_down_loop_eq_textbook hc h.size e (h.size - 1) 1 (by decide) h.elements
        rfl (by omega) hlen]
    · rfl
  · obtain ⟨h', hrun, _⟩ := heap_sort_down_spec compare h hlen
    exact ⟨h', hrun⟩

/-- On `[_, 9, 4, 2]` of size 3 both sift-downs promote the right child 2. -/
theorem sort_down_eq_textbook_witness :
    TotalPreorder ascending ∧ WellFormed (⟨3, 3, [0, 9, 4, 2]⟩ : Heap Int) ∧
    textbook_sift_down ascending ⟨3, 3, [0, 9, 4, 2]⟩ = .ok ⟨3, 3, [0, 2, 4, 9]⟩ ∧
    (heap_sort_down ascending ⟨3, 3, [0, 9, 4, 2]⟩ =
        textbook_sift_down ascending ⟨3, 3, [0, 9, 4, 2]⟩ ∧
      ∃ h', heap_sort_down ascending ⟨3, 3, [0, 9, 4, 2]⟩ = .ok h') := by
  refine ⟨ascending_totalPreorder, ⟨rfl, by decide⟩, ?_,
    sort_down_eq_textbook ascending_totalPreorder ⟨3, 3, [0, 9, 4, 2]⟩ ⟨rfl, by decide⟩⟩
  simp [textbook_sift_down, textbook_sift_down_loop, readAt, writeAt, ascending, bind,
    Except.bind, pure, Except.pure]

/-! ## Recorded accesses -/

theorem readAtT_of {α : Type} {xs : List α} {i : Nat} {x : α} (log : List Nat)
    (h : xs[i]? = some x) : readAtT xs i log = .ok (x, log ++ [i]) := by
  simp [readAtT, readAt, h, Except.map]

theorem writeAtT_of {α : Type} {xs : List α} {i : Nat} (v : α) (log : List Nat)
    (h : i < xs.length) : writeAtT xs i v log = .ok (xs.set i v, log ++ [i]) := by
  simp [writeAtT, writeAt, h, Except.map]

/-- The recorded loop of `heap_sort_up` computes what the loop computes, and every
index it accesses lies in `1 .. currentIndex`. -/
theorem heap_sort_up_loopT_spec {α : Type} (compare : α → α → Int) (e : α) :
    ∀ (cur : Nat) (a : List α) (log : List Nat), 1 ≤ cur → cur < a.length →
      ∃ cur' a' acc, heap_sort_up_loopT compare e cur a log = .ok ((cur', a'), log ++ acc) ∧
        heap_sort_up_loop compare e cur a = .ok (cur', a') ∧
        ∀ i ∈ acc, 1 ≤ i ∧ i ≤ cur := by
  intro cur
  induction cur using Nat.strong_induction_on with
  | _ cur ih =>
    intro a log h1 hlen
    rw [heap_sort_up_loopT, heap_sort_up_loop]
    split
    · rename_i hgt
      obtain ⟨p, hp⟩ := exists_getElem?_of_lt (show cur / 2 < a.length by omega)
      simp only [readAtT_of _ hp, readAt_of_getElem? hp, bind, StateT.bind, Except.bind]
      by_cases hlt : compare p e < 0
      · simp only [hlt, if_true, readAtT_of _ hp, writeAtT_of p _ hlen, writeAt_of_lt p hlen,
          StateT.bind, bind, Except.bind]
        obtain ⟨cur', a', acc, hT, hP, hacc⟩ :=
          ih (cur / 2) (by omega) (a.set cur p) (log ++ [cur / 2] ++ [cur / 2] ++ [cur])
            (by omega) (by simp; omega)
        refine ⟨cur', a', [cur / 2, cur / 2, cur] ++ acc, ?_, hP, ?_⟩
        · rw [hT]
          simp
        · intro i hi
          simp only [List.cons_append, List.nil_append, List.mem_cons] at hi
          rcases hi with rfl | rfl | rfl | hi
          · omega
          · omega
          · omega
          · have := hacc i hi
            omega
      · refine ⟨cur, a, [cur / 2], ?_, ?_, ?_⟩
        · simp [hlt, pure, StateT.pure, Except.pure]
        · simp [hlt, pure, Except.pure]
        · intro i hi
          simp only [List.mem_singleton] at hi
          omega
    · refine ⟨cur, a, [], ?_, rfl, ?_⟩
      · simp [pure, StateT.pure, Except.pure]
      · intro i hi
        cases hi

/-- The recorded loop of `heap_sort_down` computes what the loop computes, and every
index it accesses lies in `1 .. size`. -/
theorem heap_sort_down_loopT_spec {α : Type} (compare : α → α → Int) (n : Nat) (e : α) :
    ∀ (m cur : Nat) (hpos : 0 < cur) (a : List α) (log : List Nat), n - cur = m → cur ≤ n →
      n < a.length →
      ∃ cur' a' acc,
        heap_sort_down_loopT compare n e cur hpos a log = .ok ((cur', a'), log ++ acc) ∧
        heap_sort_down_loop compare n e cur hpos a = .ok (cur', a') ∧
        ∀ i ∈ acc, 1 ≤ i ∧ i ≤ n := by
  intro m
  induction m using Nat.strong_induction_on with
  | _ m ih =>
    intro cur hpos a log hm hcur hlen
    have hclen : cur < a.length := by omega
    have key : ∀ (c : Nat) (hc : 0 < c) (x : α) (pre : List Nat), cur < c → c ≤ n →
        (∀ i ∈ pre, 1 ≤ i ∧ i ≤ n) →
        ∃ cur' a' acc,
          heap_sort_down_loopT compare n e c hc (a.set cur x) (log ++ pre) =
            .ok ((cur', a'), log ++ acc) ∧
          heap_sort_down_loop compare n e c hc (a.set cur x) = .ok (cur', a') ∧
          ∀ i ∈ acc, 1 ≤ i ∧ i ≤ n := by
      intro c hc x pre hlt hcn hpre
      obtain ⟨cur', a', acc, hT, hP, hacc⟩ :=
        ih (n - c) (by omega) c hc (a.set cur x) (log ++ pre) rfl hcn (by simp; omega)
      refine ⟨cur', a', pre ++ acc, ?_, hP, ?_⟩
      · rw [hT, List.append_assoc]
      · intro i hi
        rcases List.mem_append.1 hi with h | h
        · exact hpre i h
        · exact hacc i h
    have stop : ∀ (pre : List Nat), (∀ i ∈ pre, 1 ≤ i ∧ i ≤ n) →
        ∃ cur' a' acc,
          (Except.ok ((cur, a), log ++ pre) : Except Fault ((Nat × List α) × List Nat)) =
            .ok ((cur', a'), log ++ acc) ∧
          (Except.ok (cur, a) : Except Fault (Nat × List α)) = .ok (cur', a') ∧
          ∀ i ∈ acc, 1 ≤ i ∧ i ≤ n :=
      fun pre hpre => ⟨cur, a, pre, rfl, rfl, hpre⟩
    have hmem : ∀ (pre : List Nat), (∀ i ∈ pre, i = 2 * cur ∨ i = 2 * cur + 1 ∨ i = cur) →
        2 * cur ≤ n → (2 * cur + 1 ∈ pre → 2 * cur + 1 ≤ n) → ∀ i ∈ pre, 1 ≤ i ∧ i ≤ n := by
      intro pre hpre hl hr i hi
      rcases hpre i hi with h | h | h
      · omega
      · have := hr (h ▸ hi)
        omega
      · omega
    rw [heap_sort_down_loopT, heap_sort_down_loop]
    by_cases hl : 2 * cur ≤ n
    · obtain ⟨l, hgl⟩ := exists_getElem?_of_lt (show 2 * cur < a.length by omega)
      by_cases hr : 2 * cur + 1 ≤ n
      · obtain ⟨r, hgr⟩ := exists_getElem?_of_lt (show 2 * cur + 1 < a.length by omega)
        by_cases h1 : compare e r < 0
        · by_cases h2 : compare r l > 0
          · have hk := key (2 * cur + 1) (Nat.succ_pos _) r
              [2 * cur + 1, 2 * cur + 1, 2 * cur, 2 * cur + 1, cur] (by omega) hr
              (hmem _ (by simp) hl (fun _ => hr))
            simpa [hl, hr, h1, h2, readAtT_of _ hgr, readAtT_of _ hgl, writeAtT_of _ _ hclen,
              readAt_of_getElem? hgr, readAt_of_getElem? hgl, writeAt_of_lt _ hclen, bind,
              StateT.bind, Except.bind, pure, StateT.pure, Except.pure] using hk
          · by_cases h3 : compare e l < 0
            · have hk := key (2 * cur) (Nat.mul_pos (by decide) hpos) l
                [2 * cur + 1, 2 * cur + 1, 2 * cur, 2 * cur, 2 * cur, cur] (by omega) hl
                (hmem _ (by simp) hl (fun _ => hr))
              simpa [hl, hr, h1, h2, h3, readAtT_of _ hgr, readAtT_of _ hgl,
                writeAtT_of _ _ hclen, readAt_of_getElem? hgr, readAt_of_getElem? hgl,
                writeAt_of_lt _ hclen, bind, StateT.bind, Except.bind, pure, StateT.pure,
                Except.pure] using hk
            · have hk := stop [2 * cur + 1, 2 * cur + 1, 2 * cur, 2 * cur]
                (hmem _ (by simp) hl (fun _ => hr))
              simpa [hl, hr, h1, h2, h3, readAtT_of _ hgr, readAtT_of _ hgl,
                readAt_of_getElem? hgr, readAt_of_getElem? hgl, bind, StateT.bind,
                Except.bind, pure, StateT.pure, Except.pure] using hk
        · by_cases h3 : compare e l < 0
          · have hk := key (2 * cur) (Nat.mul_pos (by decide) hpos) l
              [2 * cur + 1, 2 * cur, 2 * cur, cur] (by omega) hl
              (hmem _ (by simp) hl (fun _ => hr))
            simpa [hl, hr, h1, h3, readAtT_of _ hgr, readAtT_of _ hgl, writeAtT_of _ _ hclen,
              readAt_of_getElem? hgr, readAt_of_getElem? hgl, writeAt_of_lt _ hclen, bind,
              StateT.bind, Except.bind, pure, StateT.pure, Except.pure] using hk
          · have hk := stop [2 * cur + 1, 2 * cur] (hmem _ (by simp) hl (fun _ => hr))
            simpa [hl, hr, h1, h3, readAtT_of _ hgr, readAtT_of _ hgl,
              readAt_of_getElem? hgr, readAt_of_getElem? hgl, bind, StateT.bind,
              Except.bind, pure, StateT.pure, Except.pure] using hk
      · by_cases h3 : compare e l < 0
        · have hk := key (2 * cur) (Nat.mul_pos (by decide) hpos) l [2 * cur, 2 * cur, cur]
            (by omega) hl (hmem _ (by simp) hl (by simp; omega))
          simpa [hl, hr, h3, readAtT_of _ hgl, writeAtT_of _ _ hclen,
            readAt_of_getElem? hgl, writeAt_of_lt _ hclen, bind, StateT.bind, Except.bind,
            pure, StateT.pure, Except.pure] using hk
        · have hk := stop [2 * cur] (hmem _ (by simp) hl (by simp))
          simpa [hl, hr, h3, readAtT_of _ hgl, readAt_of_getElem? hgl, bind, StateT.bind,
            Except.bind, pure, StateT.pure, Except.pure] using hk
    · have hk := stop [] (fun i hi => by cases hi)
      simpa [hl, pure, StateT.pure, Except.pure] using hk

theorem heap_sort_upT_spec {α : Type} (compare : α → α → Int) (h : Heap α)
    (log : List Nat) (hlen : h.size < h.elements.length) :
    ∃ h' acc, heap_sort_upT compare h log = .ok (h', log ++ acc) ∧
      heap_sort_up compare h = .ok h' ∧ ∀ i ∈ acc, 1 ≤ i ∧ i ≤ h.size := by
  unfold heap_sort_upT heap_sort_up
  by_cases hgt : h.size > 1
  · obtain ⟨e, he⟩ := exists_getElem?_of_lt hlen
    obtain ⟨cur', a', acc, hT, hP, hacc⟩ :=
      heap_sort_up_loopT_spec compare e h.size h.elements (log ++ [h.size]) (by omega) hlen
    obtain ⟨c2, a2, hP2, hl2, hle2, hpos2, _⟩ :=
      heap_sort_up_loop_ok compare e h.size h.elements hlen
    rw [hP] at hP2
    cases hP2
    have hc : cur' < a'.length := by omega
    refine ⟨{ h with elements := a'.set cur' e }, [h.size] ++ acc ++ [cur'], ?_, ?_, ?_⟩
    · simp [hgt, readAtT_of _ he, hT, writeAtT_of _ _ hc, bind, StateT.bind, Except.bind, pure,
        StateT.pure, Except.pure]
    · simp [hgt, readAt_of_getElem? he, hP, writeAt_of_lt _ hc, bind, Except.bind, pure,
        Except.pure]
    · intro i hi
      simp only [List.singleton_append, List.cons_append, List.mem_cons, List.mem_append,
        List.mem_singleton, List.not_mem_nil, or_false, false_or] at hi
      rcases hi with rfl | hi | rfl
      · omega
      · exact hacc i hi
      · have := hpos2 (by omega)
        omega
  · refine ⟨h, [], ?_, ?_, ?_⟩
    · simp [hgt, pure, StateT.pure, Except.pure]
    · simp [hgt, pure, Except.pure]
    · intro i hi
      cases hi

theorem heap_sort_downT_spec {α : Type} (compare : α → α → Int) (h : Heap α)
    (log : List Nat) (hlen : h.size < h.elements.length) :
    ∃ h' acc, heap_sort_downT compare h log = .ok (h', log ++ acc) ∧
      heap_sort_down compare h = .ok h' ∧ ∀ i ∈ acc, 1 ≤ i ∧ i ≤ h.size := by
  unfold heap_sort_downT heap_sort_down
  by_cases hgt : h.size > 1
  · obtain ⟨e, he⟩ := exists_getElem?_of_lt (show 1 < h.elements.length by omega)
    obtain ⟨cur', a', acc, hT, hP, hacc⟩ :=
      heap_sort_down_loopT_spec compare h.size e (h.size - 1) 1 (by decide) h.elements
        (log ++ [1]) rfl (by omega) hlen
    obtain ⟨c2, a2, hP2, hl2, hle2, hle2', _⟩ :=
      heap_sort_down_loop_ok compare h.size e (h.size - 1) 1 (by decide) h.elements rfl
        (by omega) hlen
    rw [hP] at hP2
    cases hP2
    have hc : cur' < a'.length := by omega
    refine ⟨{ h with elements := a'.set cur' e }, [1] ++ acc ++ [cur'], ?_, ?_, ?_⟩
    · simp [hgt, readAtT_of _ he, hT, writeAtT_of _ _ hc, bind, StateT.bind, Except.bind, pure,
        StateT.pure, Except.pure]
    · simp [hgt, readAt_of_getElem? he, hP, writeAt_of_lt _ hc, bind, Except.bind, pure,
        Except.pure]
    · intro i hi
      simp only [List.singleton_append, List.cons_append, List.mem_cons, List.mem_append,
        List.mem_singleton, List.not_mem_nil, or_false, false_or] at hi
      rcases hi with rfl | hi | rfl
      · omega
      · exact hacc i hi
      · omega
  · refine ⟨h, [], ?_, ?_, ?_⟩
    · simp [hgt, pure, StateT.pure, Except.pure]
    · simp [hgt, pure, Except.pure]
    · intro i hi
      cases hi

theorem heap_pushT_spec {α : Type} (compare : α → α → Int) (h : Heap α) (e : α)
    (log : List Nat) (hlen : h.size + 1 < h.elements.length) :
    ∃ h' acc, heap_pushT compare h e log = .ok (h', log ++ acc) ∧
      heap_push compare h e = .ok h' ∧ ∀ i ∈ acc, 1 ≤ i ∧ i ≤ h.size + 1 := by
  obtain ⟨h', acc, hT, hP, hacc⟩ :=
    heap_sort_upT_spec compare
      { h with size := h.size + 1, elements := h.elements.set (h.size + 1) e }
      (log ++ [h.size + 1]) (by simpa using hlen)
  refine ⟨h', [h.size + 1] ++ acc, ?_, ?_, ?_⟩
  · unfold heap_pushT
    simp only [writeAtT_of _ _ hlen, bind, StateT.bind, Except.bind]
    rw [hT]
    simp
  · unfold heap_push
    simp only [writeAt_of_lt _ hlen, bind, Except.bind]
    exact hP
  · intro i hi
    simp only [List.singleton_append, List.mem_cons] at hi
    rcases hi with rfl | hi
    · omega
    · exact hacc i hi

theorem heap_popT_spec {α : Type} (compare : α → α → Int) (h : Heap α) (log : List Nat)
    (hpos : 0 < h.size) (hlen : h.size < h.elements.length) :
    ∃ e h' acc, heap_popT compare h log = .ok ((e, h'), log ++ acc) ∧
      heap_pop compare h = .ok (e, h') ∧ ∀ i ∈ acc, 1 ≤ i ∧ i ≤ h.size := by
  have h1 : 1 < h.elements.length := by omega
  obtain ⟨e, he⟩ := exists_getElem?_of_lt h1
  obtain ⟨last, hlast⟩ := exists_getElem?_of_lt hlen
  obtain ⟨h', acc, hT, hP, hacc⟩ :=
    heap_sort_downT_spec compare
      { h with size := h.size - 1, elements := h.elements.set 1 last }
      (log ++ [1] ++ [h.size] ++ [1]) (by simp; omega)
  refine ⟨e, h', [1, h.size, 1] ++ acc, ?_, ?_, ?_⟩
  · unfold heap_popT
    simp only [hpos, if_true, readAtT_of _ he, readAtT_of _ hlast, writeAtT_of _ _ h1, bind,
      StateT.bind, Except.bind, hT, pure, StateT.pure, Except.pure]
    simp
  · unfold heap_pop
    simp only [hpos, if_true, readAt_of_getElem? he, readAt_of_getElem? hlast,
      writeAt_of_lt _ h1, bind, Except.bind, hP, pure, Except.pure]
  · intro i hi
    simp only [List.cons_append, List.nil_append, List.mem_cons] at hi
    rcases hi with rfl | rfl | rfl | hi
    · omega
    · omega
    · omega
    · have := hacc i hi
      simp only at this
      omega

/-! ## Claims about accesses, content and termination -/

/-- Claim C17.  Slot 0 is never used.  On a heap with `capacity + 1` slots and
`size <= capacity`, a call of `push` (with `size < capacity`), `pop` (with
`size > 0`), `sort_up` or `sort_down` returns, none of the array accesses it makes
is at index 0, and slot 0 holds after the call what it held before; the element
`pop` returns is the one at index 1. -/
theorem slot_zero_unused {α : Type} (compare : α → α → Int) (h : Heap α)
    (hwf : WellFormed h) :
    (∀ e log, h.size < h.capacity →
      ∃ h' acc, heap_pushT compare h e log = .ok (h', log ++ acc) ∧
        heap_push compare h e = .ok h' ∧ 0 ∉ acc ∧ h'.elements[0]? = h.elements[0]?) ∧
    (∀ log, 0 < h.size →
      ∃ top h' acc, heap_popT compare h log = .ok ((top, h'), log ++ acc) ∧
        heap_pop compare h = .ok (top, h') ∧ 0 ∉ acc ∧
        h'.elements[0]? = h.elements[0]? ∧ h.elements[1]? = some top) ∧
    (∀ log, ∃ h' acc, heap_sort_upT compare h log = .ok (h', log ++ acc) ∧
      heap_sort_up compare h = .ok h' ∧ 0 ∉ acc ∧ h'.elements[0]? = h.elements[0]?) ∧
    (∀ log, ∃ h' acc, heap_sort_downT compare h log = .ok (h', log ++ acc) ∧
      heap_sort_down compare h = .ok h' ∧ 0 ∉ acc ∧ h'.elements[0]? = h.elements[0]?) := by
  obtain ⟨hl, hle⟩ := hwf
  have hnot : ∀ (acc : List Nat) (n : Nat), (∀ i ∈ acc, 1 ≤ i ∧ i ≤ n) → 0 ∉ acc := by
    intro acc n hacc h0
    have := hacc 0 h0
    omega
  refine ⟨?_, ?_, ?_, ?_⟩
  · intro e log hlt
    obtain ⟨h', acc, hT, hP, hacc⟩ := heap_pushT_spec compare h e log (by omega)
    obtain ⟨h'', hP', _, _, _, _, hframe, _⟩ := heap_push_spec compare h e (by omega)
    rw [hP] at hP'
    cases hP'
    exact ⟨h', acc, hT, hP, hnot acc _ hacc, hframe 0 (Or.inl rfl)⟩
  · intro log hpos
    obtain ⟨e, h', acc, hT, hP, hacc⟩ := heap_popT_spec compare h log hpos (by omega)
    obtain ⟨e', h'', hP', he, _, _, _, _, hframe, _⟩ := heap_pop_spec compare h hpos (by omega)
    rw [hP] at hP'
    cases hP'
    exact ⟨e, h', acc, hT, hP, hnot acc _ hacc, hframe 0 (Or.inl rfl), he⟩
  · intro log
    obtain ⟨h', acc, hT, hP, hacc⟩ := heap_sort_upT_spec compare h log (by omega)
    obtain ⟨h'', hP', _, _, _, _, hframe, _⟩ := heap_sort_up_spec compare h (by omega)
    rw [hP] at hP'
    cases hP'
    exact ⟨h', acc, hT, hP, hnot acc _ hacc, hframe 0 (Or.inl rfl)⟩
  · intro log
    obtain ⟨h', acc, hT, hP, hacc⟩ := heap_sort_downT_spec compare h log (by omega)
    obtain ⟨h'', hP', _, _, _, _, hframe, _⟩ := heap_sort_down_spec compare h (by omega)
    rw [hP] at hP'
    cases hP'
    exact ⟨h', acc, hT, hP, hnot acc _ hacc, hframe 0 (Or.inl rfl)⟩

/-- The accesses of `pop` on `[_, 1, 3, 8]` of size 3: read 1, read 3, write 1, then
the sift-down reads 1, 2, 2 and writes 1 and 2; index 0 does not occur. -/
theorem slot_zero_unused_witness :
    WellFormed (⟨3, 3, [0, 1, 3, 8]⟩ : Heap Int) ∧
    heap_popT ascending ⟨3, 3, [0, 1, 3, 8]⟩ [] =
      .ok ((1, ⟨3, 2, [0, 3, 8, 8]⟩), [1, 3, 1, 1, 2, 2, 1, 2]) ∧
    ∃ top h' acc, heap_popT ascending ⟨3, 3, [0, 1, 3, 8]⟩ [] = .ok ((top, h'), [] ++ acc) ∧
      heap_pop ascending ⟨3, 3, [0, 1, 3, 8]⟩ = .ok (top, h') ∧ 0 ∉ acc ∧
      h'.elements[0]? = ([0, 1, 3, 8] : List Int)[0]? ∧
      ([0, 1, 3, 8] : List Int)[1]? = some top := by
  refine ⟨⟨rfl, by decide⟩, ?_,
    (slot_zero_unused ascending ⟨3, 3, [0, 1, 3, 8]⟩ ⟨rfl, by decide⟩).2.1 [] (by decide)⟩
  simp [heap_popT, heap_sort_downT, heap_sort_down_loopT, readAtT, writeAtT, readAt, writeAt,
    ascending, bind, StateT.bind, Except.bind, pure, StateT.pure, Except.pure, Except.map]

/-- Claim C18.  Content preservation, for every comparator.  On a heap with
`capacity + 1` slots and `size <= capacity`: after `push(e)` (called with
`size < capacity`) the multiset of the slots `1 .. size` is the multiset before plus
one copy of `e`; after `pop` (called with `size > 0`) the multiset before is the
multiset after plus one copy of the returned element; `sort_up` and `sort_down`
leave the multiset of the slots `1 .. size` unchanged. -/
theorem content_preserved {α : Type} (compare : α → α → Int) (h : Heap α)
    (hwf : WellFormed h) :
    (∀ e, h.size < h.capacity →
      ∃ h', heap_push compare h e = .ok h' ∧
        (↑(stored h') : Multiset α) = e ::ₘ (↑(stored h) : Multiset α)) ∧
    (0 < h.size →
      ∃ e h', heap_pop compare h = .ok (e, h') ∧
        (↑(stored h) : Multiset α) = e ::ₘ (↑(stored h') : Multiset α)) ∧
    (∃ h', heap_sort_up compare h = .ok h' ∧
      (↑(stored h') : Multiset α) = (↑(stored h) : Multiset α)) ∧
    (∃ h', heap_sort_down compare h = .ok h' ∧
      (↑(stored h') : Multiset α) = (↑(stored h) : Multiset α)) := by
  obtain ⟨hl, hle⟩ := hwf
  refine ⟨?_, ?_, ?_, ?_⟩
  · intro e hlt
    obtain ⟨h', hrun, _, _, _, hperm, _⟩ := heap_push_spec compare h e (by omega)
    refine ⟨h', hrun, ?_⟩
    rw [Multiset.cons_coe]
    exact Multiset.coe_eq_coe.2 hperm
  · intro hpos
    obtain ⟨e, h', hrun, _, _, _, _, hperm, _⟩ := heap_pop_spec compare h hpos (by omega)
    refine ⟨e, h', hrun, ?_⟩
    rw [Multiset.cons_coe]
    exact Multiset.coe_eq_coe.2 hperm.symm
  · obtain ⟨h', hrun, hsz, _, _, hperm, hframe, _⟩ := heap_sort_up_spec compare h (by omega)
    refine ⟨h', hrun, Multiset.coe_eq_coe.2 ?_⟩
    unfold stored
    rw [hsz]
    exact perm_slots _ _ _ hperm hframe
  · obtain ⟨h', hrun, hsz, _, _, hperm, hframe, _⟩ := heap_sort_down_spec compare h (by omega)
    refine ⟨h', hrun, Multiset.coe_eq_coe.2 ?_⟩
    unfold stored
    rw [hsz]
    exact perm_slots _ _ _ hperm hframe

theorem content_preserved_witness :
    WellFormed (⟨3, 2, [0, 3, 5, 0]⟩ : Heap Int) ∧
    ∃ h', heap_push cyclic ⟨3, 2, [0, 3, 5, 0]⟩ 1 = .ok h' ∧
      (↑(stored h') : Multiset Int) = 1 ::ₘ (↑(stored (⟨3, 2, [0, 3, 5, 0]⟩ : Heap Int)) :
        Multiset Int) :=
  ⟨⟨rfl, by decide⟩,
    (content_preserved cyclic ⟨3, 2, [0, 3, 5, 0]⟩ ⟨rfl, by decide⟩).1 1 (by decide)⟩

/-- Claim C19.  Termination, for every comparator.  On an array holding the slots
`0 .. size` and an index `1 <= currentIndex <= size`: an iteration of the loop of
`heap_sort_up` that does not exit replaces `currentIndex` by `currentIndex / 2`,
which is smaller and still at least 1, and the loop returns, at an index
`currentIndex / 2 ^ k >= 1` of the path to the root; an iteration of the loop of
`heap_sort_down` that does not break replaces `currentIndex` by one of its children,
which is larger and at most `size`, and the loop returns, at an index between
`currentIndex` and `size`; `heap_sort_up` and `heap_sort_down` themselves return.
For a `size_t` of `w` bits with `2 * size + 1 < 2 ^ w` the child indices
`2 * currentIndex` and `2 * currentIndex + 1` are computed without wrap-around. -/
theorem sort_loops_terminate {α : Type} (compare : α → α → Int) (size : Nat) (e : α)
    (cur : Nat) (a : List α) (hpos : 0 < cur) (hcur : cur ≤ size) (hlen : size < a.length) :
    (∀ cur' a', heap_sort_up_step compare e cur a = .ok (some (cur', a')) →
      cur' = cur / 2 ∧ 1 ≤ cur' ∧ cur' < cur) ∧
    (heap_sort_up_loop compare e cur a =
      (heap_sort_up_step compare e cur a).bind (fun next =>
        match next with
        | none => .ok (cur, a)
        | some (cur', a') => heap_sort_up_loop compare e cur' a')) ∧
    (∃ k a', heap_sort_up_loop compare e cur a = .ok (cur / 2 ^ k, a') ∧ 1 ≤ cur / 2 ^ k) ∧
    (∀ cur' a', heap_sort_down_step compare size e cur a = .ok (some (cur', a')) →
      cur' / 2 = cur ∧ cur < cur' ∧ cur' ≤ size) ∧
    (heap_sort_down_step compare size e cur a = .ok none →
      heap_sort_down_loop compare size e cur hpos a = .ok (cur, a)) ∧
    (∀ cur' a' (hpos' : 0 < cur'),
      heap_sort_down_step compare size e cur a = .ok (some (cur', a')) →
      heap_sort_down_loop compare size e cur hpos a =
        heap_sort_down_loop compare size e cur' hpos' a') ∧
    (∃ cur' a', heap_sort_down_loop compare size e cur hpos a = .ok (cur', a') ∧
      cur ≤ cur' ∧ cur' ≤ size) ∧
    (∀ h : Heap α, h.size < h.elements.length →
      (∃ h', heap_sort_up compare h = .ok h') ∧ (∃ h', heap_sort_down compare h = .ok h')) ∧
    (∀ w, 2 * size + 1 < 2 ^ w →
      (2 * cur) % 2 ^ w = 2 * cur ∧ ((2 * cur) % 2 ^ w + 1) % 2 ^ w = 2 * cur + 1) := by
  obtain ⟨lnone, lsome, _⟩ := heap_sort_down_loop_eq_step compare size e cur hpos a
  refine ⟨?_, heap_sort_up_loop_eq_step compare e cur a, ?_, ?_, lnone, lsome, ?_, ?_, ?_⟩
  · intro cur' a' hstep
    unfold heap_sort_up_step at hstep
    split at hstep
    · rename_i hgt
      obtain ⟨p, hp⟩ := exists_getElem?_of_lt (show cur / 2 < a.length by omega)
      simp only [readAt_of_getElem? hp, writeAt_of_lt p (show cur < a.length by omega), bind,
        Except.bind, pure, Except.pure] at hstep
      split at hstep
      · simp only [Except.ok.injEq, Option.some.injEq, Prod.mk.injEq] at hstep
        omega
      · cases hstep
    · cases hstep
  · obtain ⟨k, a', hrun, _, hj1, _⟩ :=
      heap_sort_up_loop_path compare e cur a hpos (by omega)
    exact ⟨k, a', hrun, hj1⟩
  · intro cur' a' hstep
    obtain ⟨next, hnext, hR, hL, hN⟩ := heap_sort_down_step_eq compare size e cur a hcur hlen
    rw [hnext] at hstep
    simp only [Except.ok.injEq] at hstep
    subst hstep
    by_cases hRp : RightPromoted compare size e cur a
    · obtain ⟨r, _, hr⟩ := hR hRp
      simp only [Option.some.injEq, Prod.mk.injEq] at hr
      have := hRp.1
      omega
    · by_cases hLp : LeftPromoted compare size e cur a
      · obtain ⟨l, _, hl⟩ := hL hLp
        simp only [Option.some.injEq, Prod.mk.injEq] at hl
        have := hLp.2.1
        omega
      · have := hN hRp hLp
        cases this
  · obtain ⟨cur', a', hrun, _, hle, hle', _⟩ :=
      heap_sort_down_loop_ok compare size e (size - cur) cur hpos a rfl hcur hlen
    exact ⟨cur', a', hrun, hle, hle'⟩
  · intro h hl
    obtain ⟨h1, hrun1, _⟩ := heap_sort_up_spec compare h hl
    obtain ⟨h2, hrun2, _⟩ := heap_sort_down_spec compare h hl
    exact ⟨⟨h1, hrun1⟩, ⟨h2, hrun2⟩⟩
  · intro w hw
    rw [Nat.mod_eq_of_lt (show 2 * cur < 2 ^ w by omega),
      Nat.mod_eq_of_lt (show 2 * cur + 1 < 2 ^ w by omega)]
    exact ⟨rfl, rfl⟩

theorem sort_loops_terminate_witness :
    0 < 1 ∧ 1 ≤ 3 ∧ 3 < ([0, 9, 4, 2] : List Int).length ∧
    (∃ cur' a', heap_sort_down_loop ascending 3 9 1 Nat.one_pos [0, 9, 4, 2] = .ok (cur', a') ∧
      1 ≤ cur' ∧ cur' ≤ 3) ∧
    heap_sort_down_loop ascending 3 9 1 Nat.one_pos [0, 9, 4, 2] = .ok (3, [0, 2, 4, 2]) := by
  refine ⟨by decide, by decide, by decide,
    (sort_loops_terminate ascending 3 9 1 [0, 9, 4, 2] (by decide) (by decide)
      (by decide)).2.2.2.2.2.2.1, ?_⟩
  simp [heap_sort_down_loop, readAt, writeAt, ascending, bind, Except.bind, pure, Except.pure]

/-- Claim C20.  Index safety under the documented preconditions.  On a heap whose
backing sequence has `capacity + 1` slots and with `size <= capacity`, `push` called
with `size < capacity`, `pop` called with `size > 0`, `sort_up` and `sort_down`
return normally (no access falls outside the array), and every index they read or
write satisfies `1 <= i <= capacity`. -/
theorem accesses_in_bounds {α : Type} (compare : α → α → Int) (h : Heap α)
    (hwf : WellFormed h) :
    (∀ e log, h.size < h.capacity →
      ∃ h' acc, heap_pushT compare h e log = .ok (h', log ++ acc) ∧
        heap_push compare h e = .ok h' ∧
        ∀ i ∈ acc, 1 ≤ i ∧ i ≤ h.capacity ∧ i < h.elements.length) ∧
    (∀ log, 0 < h.size →
      ∃ top h' acc, heap_popT compare h log = .ok ((top, h'), log ++ acc) ∧
        heap_pop compare h = .ok (top, h') ∧
        ∀ i ∈ acc, 1 ≤ i ∧ i ≤ h.capacity ∧ i < h.elements.length) ∧
    (∀ log, ∃ h' acc, heap_sort_upT compare h log = .ok (h', log ++ acc) ∧
      heap_sort_up compare h = .ok h' ∧
      ∀ i ∈ acc, 1 ≤ i ∧ i ≤ h.capacity ∧ i < h.elements.length) ∧
    (∀ log, ∃ h' acc, heap_sort_downT compare h log = .ok (h', log ++ acc) ∧
      heap_sort_down compare h = .ok h' ∧
      ∀ i ∈ acc, 1 ≤ i ∧ i ≤ h.capacity ∧ i < h.elements.length) := by
  obtain ⟨hl, hle⟩ := hwf
  refine ⟨?_, ?_, ?_, ?_⟩
  · intro e log hlt
    obtain ⟨h', acc, hT, hP, hacc⟩ := heap_pushT_spec compare h e log (by omega)
    refine ⟨h', acc, hT, hP, ?_⟩
    intro i hi
    have := hacc i hi
    omega
  · intro log hpos
    obtain ⟨e, h', acc, hT, hP, hacc⟩ := heap_popT_spec compare h log hpos (by omega)
    refine ⟨e, h', acc, hT, hP, ?_⟩
    intro i hi
    have := hacc i hi
    omega
  · intro log
    obtain ⟨h', acc, hT, hP, hacc⟩ := heap_sort_upT_spec compare h log (by omega)
    refine ⟨h', acc, hT, hP, ?_⟩
    intro i hi
    have := hacc i hi
    omega
  · intro log
    obtain ⟨h', acc, hT, hP, hacc⟩ := heap_sort_downT_spec compare h log (by omega)
    refine ⟨h', acc, hT, hP, ?_⟩
    intro i hi
    have := hacc i hi
    omega

/-- The accesses of `push(1)` on `[_, 3, 5, _]` of size 2 and capacity 3: write 3,
then the sift-up reads 3, 1, 1 and writes 3 and 1. -/
theorem accesses_in_bounds_witness :
    WellFormed (⟨3, 2, [0, 3, 5, 0]⟩ : Heap Int) ∧
    heap_pushT ascending ⟨3, 2, [0, 3, 5, 0]⟩ 1 [] =
      .ok (⟨3, 3, [0, 1, 5, 3]⟩, [3, 3, 1, 1, 3, 1]) ∧
    ∃ h' acc, heap_pushT ascending ⟨3, 2, [0, 3, 5, 0]⟩ 1 [] = .ok (h', [] ++ acc) ∧
      heap_push ascending ⟨3, 2, [0, 3, 5, 0]⟩ 1 = .ok h' ∧
      ∀ i ∈ acc, 1 ≤ i ∧ i ≤ 3 ∧ i < ([0, 3, 5, 0] : List Int).length := by
  refine ⟨⟨rfl, by decide⟩, ?_,
    (accesses_in_bounds ascending ⟨3, 2, [0, 3, 5, 0]⟩ ⟨rfl, by decide⟩).1 1 [] (by decide)⟩
  simp [heap_pushT, heap_sort_upT, heap_sort_up_loopT, readAtT, writeAtT, readAt, writeAt,
    ascending, bind, StateT.bind, Except.bind, pure, StateT.pure, Except.pure, Except.map]

/-! ## Sifting an ordered heap -/

/-- Claim C21.  Sifting an already-ordered heap changes nothing, for every
comparator.  On a heap whose slots `0 .. size` are inside the array: if `size <= 1`
or the last element is not smaller than its parent
(`compare elements[size/2] elements[size] >= 0`), `heap_sort_up` returns the heap
unchanged; if `size <= 1` or the root is not bigger than each of its existing
children (`compare elements[1] elements[c] >= 0` for `c = 2, 3` with `c <= size`),
`heap_sort_down` returns the heap unchanged.  Consequently both are the identity on
every heap that satisfies the heap-order invariant, whatever the comparator, so in
particular under a total preorder. -/
theorem sift_ordered_heap_unchanged {α : Type} (compare : α → α → Int) (h : Heap α)
    (hlen : h.size < h.elements.length) :
    ((h.size ≤ 1 ∨ ∃ p e, h.elements[h.size / 2]? = some p ∧
        h.elements[h.size]? = some e ∧ 0 ≤ compare p e) →
      heap_sort_up compare h = .ok h) ∧
    ((h.size ≤ 1 ∨ ∃ root, h.elements[1]? = some root ∧
        ∀ c x, (c = 2 ∨ c = 3) → c ≤ h.size → h.elements[c]? = some x →
          0 ≤ compare root x) →
      heap_sort_down compare h = .ok h) ∧
    (HeapOrdered compare h →
      heap_sort_up compare h = .ok h ∧ heap_sort_down compare h = .ok h) := by
  have hup : (h.size ≤ 1 ∨ ∃ p e, h.elements[h.size / 2]? = some p ∧
      h.elements[h.size]? = some e ∧ 0 ≤ compare p e) →
      heap_sort_up compare h = .ok h := by
    intro hcond
    unfold heap_sort_up
    by_cases hgt : h.size > 1
    · rcases hcond with hle | ⟨p, e, hp, he, hpe⟩
      · omega
      · have hloop : heap_sort_up_loop compare e h.size h.elements =
            .ok (h.size, h.elements) := by
          rw [heap_sort_up_loop]
          simp [hgt, readAt_of_getElem? hp, not_lt.2 hpe, bind, Except.bind, pure,
            Except.pure]
        simp only [hgt, if_true, readAt_of_getElem? he, hloop, writeAt_of_lt e hlen, bind,
          Except.bind, pure, Except.pure]
        rw [set_eq_self_of_getElem? _ _ _ he]
    · simp [hgt, pure, Except.pure]
  have hdown : (h.size ≤ 1 ∨ ∃ root, h.elements[1]? = some root ∧
      ∀ c x, (c = 2 ∨ c = 3) → c ≤ h.size → h.elements[c]? = some x →
        0 ≤ compare root x) →
      heap_sort_down compare h = .ok h := by
    intro hcond
    unfold heap_sort_down
    by_cases hgt : h.size > 1
    · rcases hcond with hle | ⟨root, hroot, hkids⟩
      · omega
      · obtain ⟨l, hgl⟩ := exists_getElem?_of_lt (show 2 < h.elements.length by omega)
        have hl0 : ¬ compare root l < 0 := not_lt.2 (hkids 2 l (Or.inl rfl) (by omega) hgl)
        have hloop : heap_sort_down_loop compare h.size root 1 (by decide) h.elements =
            .ok (1, h.elements) := by
          rw [heap_sort_down_loop]
          by_cases hr : 3 ≤ h.size
          · obtain ⟨r, hgr⟩ := exists_getElem?_of_lt (show 3 < h.elements.length by omega)
            have hr0 : ¬ compare root r < 0 :=
              not_lt.2 (hkids 3 r (Or.inr rfl) hr hgr)
            simp [show 2 ≤ h.size by omega, hr, hl0, hr0, readAt_of_getElem? hgl,
              readAt_of_getElem? hgr, bind, Except.bind, pure, Except.pure]
          · simp [show 2 ≤ h.size by omega, hr, hl0, readAt_of_getElem? hgl, bind,
              Except.bind, pure, Except.pure]
        simp only [hgt, if_true, readAt_of_getElem? hroot, hloop,
          writeAt_of_lt root (show 1 < h.elements.length by omega), bind, Except.bind, pure,
          Except.pure]
        rw [set_eq_self_of_getElem? _ _ _ hroot]
    · simp [hgt, pure, Except.pure]
  refine ⟨hup, hdown, ?_⟩
  intro ho
  refine ⟨hup ?_, hdown ?_⟩
  · by_cases hgt : h.size ≤ 1
    · exact Or.inl hgt
    · obtain ⟨p, hp⟩ := exists_getElem?_of_lt (show h.size / 2 < h.elements.length by omega)
      obtain ⟨e, he⟩ := exists_getElem?_of_lt hlen
      exact Or.inr ⟨p, e, hp, he, ho h.size (by omega) (le_refl _) p e hp he⟩
  · by_cases hgt : h.size ≤ 1
    · exact Or.inl hgt
    · obtain ⟨root, hroot⟩ := exists_getElem?_of_lt (show 1 < h.elements.length by omega)
      refine Or.inr ⟨root, hroot, ?_⟩
      intro c x hc hcn hx
      refine ho c (by omega) hcn root x ?_ hx
      rcases hc with rfl | rfl
      · exact hroot
      · exact hroot

/-- The heap `[_, 1, 3, 8]` of size 3 is ordered: both sifts return it unchanged. -/
theorem sift_ordered_heap_unchanged_witness :
    3 < ([0, 1, 3, 8] : List Int).length ∧
    HeapOrdered ascending (⟨3, 3, [0, 1, 3, 8]⟩ : Heap Int) ∧
    heap_sort_up ascending ⟨3, 3, [0, 1, 3, 8]⟩ = .ok ⟨3, 3, [0, 1, 3, 8]⟩ ∧
    heap_sort_down ascending ⟨3, 3, [0, 1, 3, 8]⟩ = .ok ⟨3, 3, [0, 1, 3, 8]⟩ := by
  have ho : HeapOrdered ascending (⟨3, 3, [0, 1, 3, 8]⟩ : Heap Int) := by
    intro i hi2 hin p c hp hcc
    have hi : i = 2 ∨ i = 3 := by
      simp only at hin
      omega
    rcases hi with rfl | rfl
    · simp at hp hcc
      subst hp hcc
      decide
    · simp at hp hcc
      subst hp hcc
      decide
  have hboth :=
    (sift_ordered_heap_unchanged ascending ⟨3, 3, [0, 1, 3, 8]⟩ (by decide)).2.2 ho
  exact ⟨by decide, ho, hboth.1, hboth.2⟩

end MinHeap
